import Mathlib

/-!
Verification development for the route-to-hardware programming pipeline of
`fboss/agent/hw/bcm/BcmRoute.cpp`: next-hop weight normalization
(`normalizeNextHops`) and the route lifecycle (`BcmRoute::program`,
`BcmRoute::~BcmRoute`, `BcmRouteTable::addRoute` / `deleteRoute`).

Modelling conventions:
* Modelled from the spec: the `NextHop` value type (`fboss/agent/state/RouteNextHop.h`)
  is not part of the excerpt.  Per the spec's data model, a next hop is an
  (address, interface) identity plus a non-negative integer weight, ordered by
  identity with the weight not taking part in the identity.  We encode the
  (address, interface) pair injectively as a single `Nat` field `nhid` and the
  weight as an unbounded `Nat` (the spec says "integer weight ≥ 0").
* A `RouteNextHopEntry::NextHopSet` (a C++ ordered set keyed by next-hop
  identity) is embedded as a strictly `nhid`-sorted list; `insertNH` is
  `std::set::insert` (no-op when the key is already present) and `eraseNHId`
  is `std::set::erase` of the unique element with a given key.
* The floating point scale factor `FLAGS_ecmp_width / totalWeight` and the
  truncating cast in `std::max(static_cast<NextHopWeight>(w * factor), 1)` are
  embedded as exact rational flooring, i.e. `w * width / total` in `Nat`
  arithmetic, following the spec's real-valued description
  (`new weight = max(1, floor(weight * f))`).
* Hardware tables, the warm boot cache and the host table are external
  collaborators; the calls the excerpt makes into them are recorded as an
  event trace (`Ev`), and the pieces of their state the excerpt observes
  (warm boot cache contents, installed LPM keys) are threaded explicitly.
-/

/-- Embedding of `ResolvedNextHop`: `nhid` encodes the (address, interface)
identity, `weight` the `NextHopWeight`. -/
structure NextHop where
  nhid : Nat
  weight : Nat
deriving DecidableEq

/-- Strictly-sorted-by-identity well-formedness of the list embedding of a
`NextHopSet`. -/
def NHSorted (s : List NextHop) : Prop :=
  List.Pairwise (fun a b => a.nhid < b.nhid) s

instance (s : List NextHop) : Decidable (NHSorted s) :=
  List.instDecidablePairwise s

/-- Embedding of `std::set<NextHop>::insert` with the set keyed by next-hop
identity: inserts in sorted position, keeps the existing element when the
identity is already present. -/
def insertNH : List NextHop → NextHop → List NextHop
  | [], nh => [nh]
  | x :: xs, nh =>
    if nh.nhid < x.nhid then nh :: x :: xs
    else if nh.nhid = x.nhid then x :: xs
    else x :: insertNH xs nh

/-- Embedding of `std::set::erase(it)` for the element with identity `i`
(erases the first, hence on sorted-distinct lists the unique, match). -/
def eraseNHId : List NextHop → Nat → List NextHop
  | [], _ => []
  | x :: xs, i => if x.nhid = i then xs else x :: eraseNHId xs i

/-- Embedding of the `std::accumulate` total-weight computation in
`normalizeNextHops` (BcmRoute.cpp, lines 96-100). -/
def totalWeight (s : List NextHop) : Nat :=
  s.foldl (fun a nh => a + nh.weight) 0

/-- Step 1 of `normalizeNextHops` (lines 77-82): rebuild the set with every
weight coerced to at least 1 (`std::max(nhop.weight(), NextHopWeight(1))`). -/
def coerceNextHops (s : List NextHop) : List NextHop :=
  s.foldl (fun acc nh => insertNH acc ⟨nh.nhid, max nh.weight 1⟩) []

/-- Per-hop scaling formula of step 2b (lines 112-117):
`max(floor(weight * width / total), 1)` with the double-precision factor
embedded as exact flooring. -/
def scaleF (ecmpWidth totalW : Nat) (nh : NextHop) : NextHop :=
  ⟨nh.nhid, max (nh.weight * ecmpWidth / totalW) 1⟩

/-- Step 2b of `normalizeNextHops` (lines 110-117): build the scaled set and
accumulate `scaledTotalWeight` along the way. -/
def scaleNextHops (ecmpWidth totalW : Nat) (s : List NextHop) : List NextHop × Nat :=
  s.foldl
    (fun acc nh =>
      (insertNH acc.1 (scaleF ecmpWidth totalW nh), acc.2 + (scaleF ecmpWidth totalW nh).weight))
    ([], 0)

/-- Embedding of `std::max_element` over the set iterated in sorted order with
comparator `n1.weight() < n2.weight()`: returns the first element of maximal
weight (lines 127-132). -/
def maxEltNH : List NextHop → Option NextHop
  | [] => none
  | x :: xs => some (xs.foldl (fun b nh => if b.weight < nh.weight then nh else b) x)

/-- One iteration of the step 2c correction loop (lines 125-145): erase the
first maximal-weight next hop and re-insert it with weight decremented, unless
the decrement would reach weight 0, in which case the next hop is dropped. -/
def decrementMax (s : List NextHop) : List NextHop :=
  match maxEltNH s with
  | none => s
  | some m =>
    let s2 := eraseNHId s m.nhid
    if 0 < m.weight - 1 then insertNH s2 ⟨m.nhid, m.weight - 1⟩ else s2

/-- The step 2c correction loop run `overflow` times (line 125). -/
def decLoop : Nat → List NextHop → List NextHop
  | 0, s => s
  | k + 1, s => decLoop k (decrementMax s)

/-- Embedding of `normalizeNextHops` (BcmRoute.cpp, lines 73-152), with the
configured `FLAGS_ecmp_width` passed explicitly: coerce zero weights to one;
when the total exceeds the width, scale every weight down and, when the scaled
total still exceeds the width, run the decrement loop `overflow` times. -/
def normalizeNextHops (ecmpWidth : Nat) (unnormalized : List NextHop) : List NextHop :=
  if ecmpWidth < totalWeight (coerceNextHops unnormalized) then
    if ecmpWidth <
        (scaleNextHops ecmpWidth (totalWeight (coerceNextHops unnormalized))
          (coerceNextHops unnormalized)).2 then
      decLoop
        ((scaleNextHops ecmpWidth (totalWeight (coerceNextHops unnormalized))
            (coerceNextHops unnormalized)).2 - ecmpWidth)
        (scaleNextHops ecmpWidth (totalWeight (coerceNextHops unnormalized))
          (coerceNextHops unnormalized)).1
    else
      (scaleNextHops ecmpWidth (totalWeight (coerceNextHops unnormalized))
        (coerceNextHops unnormalized)).1
  else coerceNextHops unnormalized

/-- Embedding of `RouteNextHopEntry` as far as `BcmRoute` observes it: the
forwarding action together with the next-hop set (empty unless the action is
NEXTHOPS).  The admin-distance field, which `BcmRoute` only passes through, is
not modelled. -/
inductive RouteNextHopEntry where
  | drop
  | toCPU
  | nexthops (nhops : List NextHop)
deriving DecidableEq

/-- Accessor mirroring `RouteNextHopEntry::getNextHopSet()` (empty for the
fixed actions). -/
def RouteNextHopEntry.getNextHopSet : RouteNextHopEntry → List NextHop
  | .nexthops l => l
  | _ => []

/-- Observable state of a `BcmRoute` entry: the `added_` flag, the recorded
forwarding decision `fwd_` and the recorded egress handle `egressId_`. -/
structure RouteState where
  added : Bool
  fwd : RouteNextHopEntry
  egressId : Nat
deriving DecidableEq

/-- Freshly constructed `BcmRoute`: not yet added, default forwarding info. -/
def initRouteState : RouteState := ⟨false, RouteNextHopEntry.drop, 0⟩

/-- Static identity of a `BcmRoute`: vrf, address family, destination address
and mask length (`vrf_`, `prefix_`, `len_`). -/
structure RouteCfg where
  vrf : Nat
  isV6 : Bool
  addr : Nat
  len : Nat
deriving DecidableEq

/-- Descriptor the warm boot cache stores for an LPM route, restricted to the
fields the equivalence check at lines 303-310 reads: the IP6 and MULTIPATH
flag bits of `l3a_flags` and the egress interface `l3a_intf`. -/
structure LpmDescr where
  ip6 : Bool
  multipath : Bool
  intf : Nat
deriving DecidableEq

/-- Warm boot cache contents observed by `BcmRoute`: the host routes found via
`findHostRouteFromRouteTable` keyed by (vrf, address), and the LPM routes found
via `findRoute` keyed by (vrf, address, mask length).  `programmed(itr)`
removes the entry. -/
structure WarmBootCache where
  hostRoutes : List (Nat × Nat)
  lpmRoutes : List ((Nat × Nat × Nat) × LpmDescr)
deriving DecidableEq

/-- Hardware state the claims observe: the set of installed LPM route keys
(vrf, address, mask length). -/
structure HwState where
  lpmKeys : List (Nat × Nat × Nat)
deriving DecidableEq

/-- Calls the excerpt issues to its collaborators, recorded as a trace:
`incRefOrCreateBcmEcmpHost` / `derefBcmEcmpHost` keyed by (vrf, next-hop set),
`incRefOrCreateBcmHost` / `derefBcmHost` keyed by (vrf, address), the
`addToBcmHostTable` host write, the `opennsl_l3_route_add` LPM write and the
`opennsl_l3_route_delete` LPM delete. -/
inductive Ev where
  | incEcmp (vrf : Nat) (nhops : List NextHop)
  | derefEcmp (vrf : Nat) (nhops : List NextHop)
  | incHost (vrf addr : Nat)
  | derefHost (vrf addr : Nat)
  | hostWrite (vrf addr : Nat) (isEcmp replace : Bool)
  | lpmWrite (vrf addr len : Nat) (ip6 multipath replace : Bool) (egress : Nat)
  | lpmDelete (vrf addr len : Nat)
deriving DecidableEq

/-- Platform and host-table environment: capability bits, the fixed egress
ids, the (deterministic) egress id the host table hands out for a next-hop
set, and the configured `FLAGS_ecmp_width`. -/
structure Platform where
  canUseHostTableForHostRoutes : Bool
  dropEgressId : Nat
  toCPUEgressId : Nat
  ecmpEgressId : Nat → List NextHop → Nat
  ecmpWidth : Nat

/-- Outcome of a `program`/`addRoute` call: normal return, a thrown
`BcmError`/`FbossError`, or a fatal `CHECK` failure. -/
inductive POut where
  | success
  | threw
  | aborted
deriving DecidableEq

/-- Result of `BcmRoute::program`: outcome, the entry state on return (or at
the instant the exception propagates), the warm boot cache and hardware state,
and the trace of collaborator calls made during the call. -/
structure PRes where
  out : POut
  st : RouteState
  wb : WarmBootCache
  hw : HwState
  evs : List Ev
deriving DecidableEq

/-- Embedding of `BcmRoute::isHostRoute()` (lines 186-188). -/
def isHostRouteCfg (cfg : RouteCfg) : Bool :=
  if cfg.isV6 then cfg.len == 128 else cfg.len == 32

/-- Embedding of `BcmRoute::canUseHostTable()` (lines 190-192). -/
def canUseHostTable (plat : Platform) (cfg : RouteCfg) : Bool :=
  isHostRouteCfg cfg && plat.canUseHostTableForHostRoutes

/-- Embedding of the `cleanupHost` lambda of `program` (lines 202-207): deref
the ecmp host reference for a next-hop set, skipped when the set is empty. -/
def cleanupHostEvs (vrf : Nat) (nhops : List NextHop) : List Ev :=
  if nhops = [] then [] else [Ev.derefEcmp vrf nhops]

/-- Lookup in the warm boot cache's LPM route map (`findRoute`). -/
def wbLookupLpm (wb : WarmBootCache) (k : Nat × Nat × Nat) : Option LpmDescr :=
  match wb.lpmRoutes.find? (fun p => p.1 == k) with
  | some p => some p.2
  | none => none

/-- Marking an LPM warm boot cache entry consumed (`programmed(itr)`); the map
has unique keys, so removing every binding of the key is the map erase. -/
def wbConsumeLpm (wb : WarmBootCache) (k : Nat × Nat × Nat) : WarmBootCache :=
  ⟨wb.hostRoutes, wb.lpmRoutes.filter (fun p => ¬ p.1 = k)⟩

/-- Marking a host-route warm boot cache entry consumed (`programmed(itr)`). -/
def wbConsumeHost (wb : WarmBootCache) (k : Nat × Nat) : WarmBootCache :=
  ⟨wb.hostRoutes.filter (fun p => ¬ p = k), wb.lpmRoutes⟩

/-- Recording an LPM route as installed in hardware. -/
def hwInsertLpm (hw : HwState) (k : Nat × Nat × Nat) : HwState :=
  if k ∈ hw.lpmKeys then hw else ⟨hw.lpmKeys ++ [k]⟩

/-- Removing an LPM route from hardware. -/
def hwEraseLpm (hw : HwState) (k : Nat × Nat × Nat) : HwState :=
  ⟨hw.lpmKeys.filter (fun x => ¬ x = k)⟩

/-- Embedding of the host-table branch of `BcmRoute::program` (lines 233-256)
together with `BcmRoute::programHostRoute` (lines 272-286).  The caller has
already resolved `egressId`; the `incEcmp` acquisition event is prepended by
the caller.  When `hwFail` is true the `addToBcmHostTable` write throws: the
`SCOPE_FAIL` of `programHostRoute` derefs the just-acquired host reference and
the `SCOPE_FAIL` of `program` derefs the just-acquired ecmp host reference.
Modelled from the spec: `BcmHost::addToBcmHostTable` is outside the excerpt;
per the spec (and the comment at lines 251-254), calling it with
`replace = true` also removes the pre-existing LPM entry for the prefix. -/
def programHostPath (cfg : RouteCfg) (st : RouteState) (wb : WarmBootCache)
    (hw : HwState) (fwd : RouteNextHopEntry) (egressId : Nat) (hwFail : Bool) : PRes :=
  let evDerefOld : List Ev := if st.added then [Ev.derefHost cfg.vrf cfg.addr] else []
  let entryExists : Bool := decide ((cfg.vrf, cfg.addr) ∈ wb.hostRoutes)
  if hwFail then
    { out := POut.threw, st := st, wb := wb, hw := hw,
      evs := evDerefOld ++ [Ev.incHost cfg.vrf cfg.addr, Ev.derefHost cfg.vrf cfg.addr]
               ++ cleanupHostEvs cfg.vrf fwd.getNextHopSet }
  else
    let evWrite : List Ev :=
      [Ev.incHost cfg.vrf cfg.addr,
       Ev.hostWrite cfg.vrf cfg.addr (decide (1 < fwd.getNextHopSet.length)) entryExists]
    let hw2 := if entryExists then hwEraseLpm hw (cfg.vrf, cfg.addr, cfg.len) else hw
    let wb2 := if entryExists then wbConsumeHost wb (cfg.vrf, cfg.addr) else wb
    let evOldClean : List Ev :=
      if st.added then cleanupHostEvs cfg.vrf st.fwd.getNextHopSet else []
    { out := POut.success, st := ⟨true, fwd, egressId⟩, wb := wb2, hw := hw2,
      evs := evDerefOld ++ evWrite ++ evOldClean }

/-- Embedding of `BcmRoute::programLpmRoute` (lines 288-342) plus the tail of
`program` (lines 260-269): warm boot reconciliation, the `opennsl_l3_route_add`
write (throwing via `bcmCheckError` when `hwFail`), marking the snapshot entry
consumed, releasing the previous next-hop reference and committing the entry
fields. -/
def programLpmPath (cfg : RouteCfg) (st : RouteState) (wb : WarmBootCache)
    (hw : HwState) (fwd : RouteNextHopEntry) (egressId : Nat) (hwFail : Bool) : PRes :=
  let key : Nat × Nat × Nat := (cfg.vrf, cfg.addr, cfg.len)
  let newDescr : LpmDescr := ⟨cfg.isV6, decide (1 < fwd.getNextHopSet.length), egressId⟩
  let evOldClean : List Ev :=
    if st.added then cleanupHostEvs cfg.vrf st.fwd.getNextHopSet else []
  match wbLookupLpm wb key with
  | some existing =>
    if existing = newDescr then
      { out := POut.success, st := ⟨true, fwd, egressId⟩, wb := wbConsumeLpm wb key,
        hw := hw, evs := evOldClean }
    else if hwFail then
      { out := POut.threw, st := st, wb := wb, hw := hw,
        evs := cleanupHostEvs cfg.vrf fwd.getNextHopSet }
    else
      { out := POut.success, st := ⟨true, fwd, egressId⟩, wb := wbConsumeLpm wb key,
        hw := hwInsertLpm hw key,
        evs := Ev.lpmWrite cfg.vrf cfg.addr cfg.len cfg.isV6 newDescr.multipath true egressId
                 :: evOldClean }
  | none =>
    if hwFail then
      { out := POut.threw, st := st, wb := wb, hw := hw,
        evs := cleanupHostEvs cfg.vrf fwd.getNextHopSet }
    else
      { out := POut.success, st := ⟨true, fwd, egressId⟩, wb := wb,
        hw := hwInsertLpm hw key,
        evs := Ev.lpmWrite cfg.vrf cfg.addr cfg.len cfg.isV6 newDescr.multipath st.added egressId
                 :: evOldClean }

/-- Choice between the host-table and LPM programming paths (line 233). -/
def programCore (plat : Platform) (cfg : RouteCfg) (st : RouteState) (wb : WarmBootCache)
    (hw : HwState) (fwd : RouteNextHopEntry) (egressId : Nat) (hwFail : Bool) : PRes :=
  if canUseHostTable plat cfg then programHostPath cfg st wb hw fwd egressId hwFail
  else programLpmPath cfg st wb hw fwd egressId hwFail

/-- Embedding of `BcmRoute::program` (lines 194-270).  `hwFail` injects a
failure into the single hardware write the call performs (if it reaches one).
The `CHECK_GT(nhops.size(), 0)` at line 219 is a fatal abort. -/
def program (plat : Platform) (cfg : RouteCfg) (st : RouteState) (wb : WarmBootCache)
    (hw : HwState) (fwd : RouteNextHopEntry) (hwFail : Bool) : PRes :=
  if st.added = true ∧ fwd = st.fwd then
    { out := POut.success, st := st, wb := wb, hw := hw, evs := [] }
  else
    match fwd with
    | RouteNextHopEntry.drop =>
      programCore plat cfg st wb hw fwd plat.dropEgressId hwFail
    | RouteNextHopEntry.toCPU =>
      programCore plat cfg st wb hw fwd plat.toCPUEgressId hwFail
    | RouteNextHopEntry.nexthops nhops =>
      if nhops = [] then { out := POut.aborted, st := st, wb := wb, hw := hw, evs := [] }
      else
        let r := programCore plat cfg st wb hw fwd (plat.ecmpEgressId cfg.vrf nhops) hwFail
        { r with evs := Ev.incEcmp cfg.vrf nhops :: r.evs }

/-- Embedding of `BcmRoute::~BcmRoute` (lines 380-400): nothing when never
added; otherwise deref the host-route host (host-table path) or delete the LPM
entry, then deref the ecmp host reference for the recorded next hops. -/
def destroyRoute (plat : Platform) (cfg : RouteCfg) (st : RouteState) (hw : HwState) :
    HwState × List Ev :=
  if st.added = false then (hw, [])
  else if canUseHostTable plat cfg then
    (hw, [Ev.derefHost cfg.vrf cfg.addr] ++ cleanupHostEvs cfg.vrf st.fwd.getNextHopSet)
  else
    (hwEraseLpm hw (cfg.vrf, cfg.addr, cfg.len),
     [Ev.lpmDelete cfg.vrf cfg.addr cfg.len] ++ cleanupHostEvs cfg.vrf st.fwd.getNextHopSet)

/-- Embedding of `BcmRouteTable::Key`: (network address with family, mask
length, vrf). -/
structure RouteKey where
  isV6 : Bool
  network : Nat
  mask : Nat
  vrf : Nat
deriving DecidableEq

/-- The fields of the `RouteT` argument that `addRoute`/`deleteRoute` read. -/
structure RouteIn where
  isV6 : Bool
  network : Nat
  mask : Nat
  resolved : Bool
  forwardInfo : RouteNextHopEntry
deriving DecidableEq

def keyOfRoute (vrf : Nat) (r : RouteIn) : RouteKey :=
  ⟨r.isV6, r.network, r.mask, vrf⟩

def cfgOfKey (k : RouteKey) : RouteCfg :=
  ⟨k.vrf, k.isV6, k.network, k.mask⟩

/-- Lookup of the first (on well-formed tables, the only) binding of a key in
the `fib_` association list. -/
def lookupTable : List (RouteKey × RouteState) → RouteKey → Option RouteState
  | [], _ => none
  | (k, v) :: t, key => if k = key then some v else lookupTable t key

/-- Update-in-place of the entry at a key (the C++ mutates the mapped
`BcmRoute` object). -/
def setTable : List (RouteKey × RouteState) → RouteKey → RouteState →
    List (RouteKey × RouteState)
  | [], _, _ => []
  | (k, v) :: t, key, st => if k = key then (k, st) :: t else (k, v) :: setTable t key st

/-- Erasure of the entry at a key (`fib_.erase`). -/
def removeKey : List (RouteKey × RouteState) → RouteKey → List (RouteKey × RouteState)
  | [], _ => []
  | (k, v) :: t, key => if k = key then t else (k, v) :: removeKey t key

/-- Whole-system state: the route table `fib_`, the warm boot cache, the
observed hardware state and the cumulative collaborator-call trace. -/
structure Sys where
  table : List (RouteKey × RouteState)
  wb : WarmBootCache
  hw : HwState
  evs : List Ev
deriving DecidableEq

/-- Result of a route-table operation. -/
structure OpRes where
  out : POut
  sys : Sys
deriving DecidableEq

/-- The per-route normalization step of `BcmRouteTable::addRoute`
(lines 459-462). -/
def normalizeFwd (plat : Platform) (fwd : RouteNextHopEntry) : RouteNextHopEntry :=
  match fwd with
  | RouteNextHopEntry.nexthops nhops =>
    RouteNextHopEntry.nexthops (normalizeNextHops plat.ecmpWidth nhops)
  | x => x

/-- Embedding of `BcmRouteTable::addRoute` (lines 443-464): emplace an empty
entry when the key is new, require the route to be resolved (`CHECK` at line
457 aborts otherwise), normalize a NEXTHOPS forwarding entry, `program` the
entry, and on a thrown failure erase the just-inserted slot (`SCOPE_FAIL` at
lines 450-452). -/
def bcmAddRoute (plat : Platform) (s : Sys) (vrf : Nat) (r : RouteIn) (hwFail : Bool) : OpRes :=
  let key := keyOfRoute vrf r
  match lookupTable s.table key with
  | some st0 =>
    if r.resolved = false then ⟨POut.aborted, s⟩
    else
      let fwd := normalizeFwd plat r.forwardInfo
      let pres := program plat (cfgOfKey key) st0 s.wb s.hw fwd hwFail
      match pres.out with
      | POut.success =>
        ⟨POut.success, ⟨setTable s.table key pres.st, pres.wb, pres.hw, s.evs ++ pres.evs⟩⟩
      | POut.threw =>
        ⟨POut.threw, ⟨setTable s.table key pres.st, pres.wb, pres.hw, s.evs ++ pres.evs⟩⟩
      | POut.aborted =>
        ⟨POut.aborted, ⟨s.table, s.wb, s.hw, s.evs ++ pres.evs⟩⟩
  | none =>
    let tbl1 := s.table ++ [(key, initRouteState)]
    if r.resolved = false then ⟨POut.aborted, ⟨tbl1, s.wb, s.hw, s.evs⟩⟩
    else
      let fwd := normalizeFwd plat r.forwardInfo
      let pres := program plat (cfgOfKey key) initRouteState s.wb s.hw fwd hwFail
      match pres.out with
      | POut.success =>
        ⟨POut.success, ⟨s.table ++ [(key, pres.st)], pres.wb, pres.hw, s.evs ++ pres.evs⟩⟩
      | POut.threw =>
        ⟨POut.threw, ⟨s.table, pres.wb, pres.hw, s.evs ++ pres.evs⟩⟩
      | POut.aborted =>
        ⟨POut.aborted, ⟨tbl1, s.wb, s.hw, s.evs ++ pres.evs⟩⟩

/-- Embedding of `BcmRouteTable::deleteRoute` (lines 466-475): throw
`FbossError` when the key is absent, otherwise erase the entry, which runs the
`BcmRoute` destructor. -/
def bcmDeleteRoute (plat : Platform) (s : Sys) (vrf : Nat) (r : RouteIn) : OpRes :=
  let key := keyOfRoute vrf r
  match lookupTable s.table key with
  | none => ⟨POut.threw, s⟩
  | some st =>
    let dres := destroyRoute plat (cfgOfKey key) st s.hw
    ⟨POut.success, ⟨removeKey s.table key, s.wb, dres.1, s.evs ++ dres.2⟩⟩

/-- One caller-issued route table operation. -/
inductive TblOp where
  | add (vrf : Nat) (r : RouteIn)
  | del (vrf : Nat) (r : RouteIn)

/-- Run one operation without failure injection; `none` when the call does not
return normally. -/
def runOp (plat : Platform) (s : Sys) (op : TblOp) : Option Sys :=
  match op with
  | TblOp.add vrf r =>
    let res := bcmAddRoute plat s vrf r false
    match res.out with
    | POut.success => some res.sys
    | _ => none
  | TblOp.del vrf r =>
    let res := bcmDeleteRoute plat s vrf r
    match res.out with
    | POut.success => some res.sys
    | _ => none

/-- Run a sequence of operations, all of which must succeed. -/
def runOps (plat : Platform) (s : Sys) : List TblOp → Option Sys
  | [] => some s
  | op :: ops =>
    match runOp plat s op with
    | some s2 => runOps plat s2 ops
    | none => none

/-- Number of occurrences of an event in a trace. -/
def evCount (e : Ev) : List Ev → Nat
  | [] => 0
  | x :: t => (if x = e then 1 else 0) + evCount e t

/-- Number of table entries currently programmed to point at the (vrf,
next-hop set) ecmp host key. -/
def pointing (vrf : Nat) (nhops : List NextHop) : List (RouteKey × RouteState) → Nat
  | [] => 0
  | p :: t =>
    (if p.2.added = true ∧ p.1.vrf = vrf ∧ p.2.fwd = RouteNextHopEntry.nexthops nhops
     then 1 else 0) + pointing vrf nhops t

/-- Concrete platform for the witnesses: no host-table shortcut, ecmp width
64. -/
def platW : Platform := ⟨false, 100, 101, fun _ _ => 7, 64⟩

/-- Concrete platform for the host-path witnesses: host-table shortcut
available, ecmp width 64. -/
def platHostW : Platform := ⟨true, 100, 101, fun _ _ => 7, 64⟩

/-- Empty initial system state (empty warm boot cache and hardware). -/
def sysEmpty : Sys := ⟨[], ⟨[], []⟩, ⟨[]⟩, []⟩

/-- A set of 65 distinct next hops of weight 1: one more than the width 64. -/
def s65 : List NextHop := (List.range 65).map (fun i => ⟨i, 1⟩)

/-- A resolved route over `s65`. -/
def rWide : RouteIn := ⟨false, 20, 24, true, RouteNextHopEntry.nexthops s65⟩

/-! ### Basic lemmas about the set embedding -/

theorem foldl_weight_acc (s : List NextHop) : ∀ n : Nat,
    s.foldl (fun a nh => a + nh.weight) n = n + s.foldl (fun a nh => a + nh.weight) 0 := by
  induction s with
  | nil => intro n; simp
  | cons x t ih =>
    intro n
    simp only [List.foldl_cons]
    rw [ih (n + x.weight), ih (0 + x.weight)]
    omega

theorem totalWeight_nil : totalWeight [] = 0 := rfl

theorem totalWeight_cons (x : NextHop) (s : List NextHop) :
    totalWeight (x :: s) = x.weight + totalWeight s := by
  simp only [totalWeight, List.foldl_cons]
  rw [foldl_weight_acc s (0 + x.weight)]
  omega

theorem totalWeight_append (s t : List NextHop) :
    totalWeight (s ++ t) = totalWeight s + totalWeight t := by
  induction s with
  | nil => simp [totalWeight_nil]
  | cons x s ih => simp only [List.cons_append, totalWeight_cons, ih]; omega

theorem totalWeight_pos_ne_nil {s : List NextHop} (h : 0 < totalWeight s) : s ≠ [] := by
  intro he
  subst he
  simp [totalWeight_nil] at h

theorem totalWeight_le_length {s : List NextHop} (h : ∀ x ∈ s, x.weight ≤ 1) :
    totalWeight s ≤ s.length := by
  induction s with
  | nil => simp [totalWeight_nil]
  | cons x t ih =>
    have hx := h x (by simp)
    have ht := ih (fun y hy => h y (by simp [hy]))
    simp only [totalWeight_cons, List.length_cons]
    omega

theorem mem_insertNH {nh y : NextHop} : ∀ {s : List NextHop},
    y ∈ insertNH s nh → y = nh ∨ y ∈ s := by
  intro s
  induction s with
  | nil =>
    intro h
    simp only [insertNH, List.mem_singleton] at h
    exact Or.inl h
  | cons x xs ih =>
    intro h
    simp only [insertNH] at h
    split at h
    · rcases List.mem_cons.mp h with h | h
      · exact Or.inl h
      · exact Or.inr h
    · split at h
      · exact Or.inr h
      · rcases List.mem_cons.mp h with h | h
        · exact Or.inr (List.mem_cons.mpr (Or.inl h))
        · rcases ih h with h | h
          · exact Or.inl h
          · exact Or.inr (List.mem_cons.mpr (Or.inr h))

theorem insertNH_append : ∀ (s : List NextHop) (nh : NextHop),
    (∀ x ∈ s, x.nhid < nh.nhid) → insertNH s nh = s ++ [nh] := by
  intro s
  induction s with
  | nil => intro nh _; rfl
  | cons x xs ih =>
    intro nh h
    have hx := h x (by simp)
    simp only [insertNH, if_neg (by omega : ¬ nh.nhid < x.nhid),
      if_neg (by omega : ¬ nh.nhid = x.nhid), List.cons_append, List.cons.injEq, true_and]
    exact ih nh (fun y hy => h y (by simp [hy]))

theorem NHSorted_insertNH {nh : NextHop} : ∀ {s : List NextHop},
    NHSorted s → NHSorted (insertNH s nh) := by
  intro s
  induction s with
  | nil => intro _; simp [insertNH, NHSorted]
  | cons x xs ih =>
    intro hs
    obtain ⟨hx, hxs⟩ := List.pairwise_cons.mp hs
    simp only [insertNH]
    split
    · refine List.pairwise_cons.mpr ⟨?_, hs⟩
      intro y hy
      rcases List.mem_cons.mp hy with h | h
      · subst h; omega
      · have := hx y h; omega
    · split
      · exact hs
      · refine List.pairwise_cons.mpr ⟨?_, ih hxs⟩
        intro y hy
        rcases mem_insertNH hy with h | h
        · subst h; omega
        · exact hx y h

theorem foldl_insertNH_append (f : NextHop → NextHop) (hf : ∀ nh, (f nh).nhid = nh.nhid) :
    ∀ (s acc : List NextHop), NHSorted s →
      (∀ a ∈ acc, ∀ b ∈ s, a.nhid < b.nhid) →
      s.foldl (fun a nh => insertNH a (f nh)) acc = acc ++ s.map f := by
  intro s
  induction s with
  | nil => intro acc _ _; simp
  | cons x xs ih =>
    intro acc hs hcross
    obtain ⟨hx, hxs⟩ := List.pairwise_cons.mp hs
    simp only [List.foldl_cons, List.map_cons]
    have h1 : insertNH acc (f x) = acc ++ [f x] := by
      refine insertNH_append acc (f x) ?_
      intro a ha
      rw [hf]
      exact hcross a ha x (by simp)
    rw [h1, ih (acc ++ [f x]) hxs ?_]
    · simp
    · intro a ha b hb
      rcases List.mem_append.mp ha with h | h
      · exact hcross a h b (by simp [hb])
      · have : a = f x := by simpa using h
        subst this
        rw [hf]
        exact hx b hb

theorem foldl_insertNH_sorted (f : NextHop → NextHop) :
    ∀ (s acc : List NextHop), NHSorted acc →
      NHSorted (s.foldl (fun a nh => insertNH a (f nh)) acc) := by
  intro s
  induction s with
  | nil => intro acc h; simpa using h
  | cons x xs ih =>
    intro acc h
    simp only [List.foldl_cons]
    exact ih (insertNH acc (f x)) (NHSorted_insertNH h)

theorem foldl_insertNH_mem (f : NextHop → NextHop) :
    ∀ (s acc : List NextHop) (y : NextHop),
      y ∈ s.foldl (fun a nh => insertNH a (f nh)) acc →
      y ∈ acc ∨ ∃ nh ∈ s, y = f nh := by
  intro s
  induction s with
  | nil => intro acc y h; simp only [List.foldl_nil] at h; exact Or.inl h
  | cons x xs ih =>
    intro acc y h
    simp only [List.foldl_cons] at h
    rcases ih (insertNH acc (f x)) y h with h | h
    · rcases mem_insertNH h with h | h
      · exact Or.inr ⟨x, by simp, h⟩
      · exact Or.inl h
    · obtain ⟨nh, hnh, hy⟩ := h
      exact Or.inr ⟨nh, by simp [hnh], hy⟩

/-! ### Characterization of the coercion and scaling passes -/

theorem coerce_eq_map {s : List NextHop} (hs : NHSorted s) :
    coerceNextHops s = s.map (fun nh => (⟨nh.nhid, max nh.weight 1⟩ : NextHop)) := by
  have := foldl_insertNH_append (fun nh => (⟨nh.nhid, max nh.weight 1⟩ : NextHop))
    (fun nh => rfl) s [] hs (by simp)
  simpa [coerceNextHops] using this

theorem coerce_sorted (s : List NextHop) : NHSorted (coerceNextHops s) :=
  foldl_insertNH_sorted (fun nh => (⟨nh.nhid, max nh.weight 1⟩ : NextHop)) s []
    (by simp [NHSorted])

theorem coerce_weights (s : List NextHop) : ∀ y ∈ coerceNextHops s, 1 ≤ y.weight := by
  intro y hy
  rcases foldl_insertNH_mem (fun nh => (⟨nh.nhid, max nh.weight 1⟩ : NextHop)) s [] y hy with
    h | ⟨nh, _, hnh⟩
  · simp at h
  · subst hnh
    exact Nat.le_max_right _ 1

theorem scale_aux (ecmpWidth totalW : Nat) :
    ∀ (s acc : List NextHop) (tot : Nat), NHSorted s →
      (∀ a ∈ acc, ∀ b ∈ s, a.nhid < b.nhid) →
      s.foldl
          (fun acc nh =>
            (insertNH acc.1 (scaleF ecmpWidth totalW nh),
             acc.2 + (scaleF ecmpWidth totalW nh).weight))
          (acc, tot)
        = (acc ++ s.map (scaleF ecmpWidth totalW),
           tot + totalWeight (s.map (scaleF ecmpWidth totalW))) := by
  intro s
  induction s with
  | nil => intro acc tot _ _; simp [totalWeight_nil]
  | cons x xs ih =>
    intro acc tot hs hcross
    obtain ⟨hx, hxs⟩ := List.pairwise_cons.mp hs
    simp only [List.foldl_cons, List.map_cons, totalWeight_cons]
    have h1 : insertNH acc (scaleF ecmpWidth totalW x) = acc ++ [scaleF ecmpWidth totalW x] := by
      refine insertNH_append acc _ ?_
      intro a ha
      exact hcross a ha x (by simp)
    rw [h1, ih (acc ++ [scaleF ecmpWidth totalW x]) (tot + (scaleF ecmpWidth totalW x).weight)
      hxs ?_]
    · simp only [List.append_assoc, List.singleton_append, Prod.mk.injEq, true_and]
      omega
    · intro a ha b hb
      rcases List.mem_append.mp ha with h | h
      · exact hcross a h b (by simp [hb])
      · have ha2 : a = scaleF ecmpWidth totalW x := by simpa using h
        subst ha2
        exact hx b hb

theorem scaleNextHops_eq (ecmpWidth totalW : Nat) {s : List NextHop} (hs : NHSorted s) :
    scaleNextHops ecmpWidth totalW s
      = (s.map (scaleF ecmpWidth totalW), totalWeight (s.map (scaleF ecmpWidth totalW))) := by
  have := scale_aux ecmpWidth totalW s [] 0 hs (by simp)
  simpa [scaleNextHops] using this

theorem NHSorted_map_id_preserving {s : List NextHop} {f : NextHop → NextHop}
    (hf : ∀ nh, (f nh).nhid = nh.nhid) (hs : NHSorted s) : NHSorted (s.map f) := by
  simp only [NHSorted, List.pairwise_map]
  refine hs.imp ?_
  intro a b h
  rw [hf, hf]
  exact h

/-! ### The max element and the decrement loop -/

theorem maxElt_foldl_spec : ∀ (xs : List NextHop) (b : NextHop),
    (xs.foldl (fun b nh => if b.weight < nh.weight then nh else b) b ∈ b :: xs) ∧
      ∀ x ∈ b :: xs, x.weight ≤ (xs.foldl (fun b nh => if b.weight < nh.weight then nh else b) b).weight := by
  intro xs
  induction xs with
  | nil => intro b; constructor <;> simp
  | cons x xs ih =>
    intro b
    simp only [List.foldl_cons]
    by_cases hbx : b.weight < x.weight
    · rw [if_pos hbx]
      obtain ⟨hmem, hbound⟩ := ih x
      constructor
      · exact List.mem_cons.mpr (Or.inr hmem)
      · intro y hy
        rcases List.mem_cons.mp hy with h | h
        · rw [h]
          have := hbound x (by simp)
          omega
        · exact hbound y h
    · rw [if_neg hbx]
      obtain ⟨hmem, hbound⟩ := ih b
      constructor
      · rcases List.mem_cons.mp hmem with h | h
        · exact List.mem_cons.mpr (Or.inl h)
        · exact List.mem_cons.mpr (Or.inr (List.mem_cons.mpr (Or.inr h)))
      · intro y hy
        rcases List.mem_cons.mp hy with h | h
        · rw [h]
          exact hbound b (by simp)
        · rcases List.mem_cons.mp h with h2 | h2
          · rw [h2]
            have := hbound b (by simp)
            omega
          · exact hbound y (by simp [h2])

theorem maxEltNH_spec {s : List NextHop} {m : NextHop} (h : maxEltNH s = some m) :
    m ∈ s ∧ ∀ x ∈ s, x.weight ≤ m.weight := by
  match s with
  | [] => simp [maxEltNH] at h
  | x :: xs =>
    simp only [maxEltNH, Option.some.injEq] at h
    obtain ⟨hmem, hbound⟩ := maxElt_foldl_spec xs x
    rw [h] at hmem hbound
    exact ⟨hmem, hbound⟩

theorem maxEltNH_ne_nil {s : List NextHop} (h : s ≠ []) : ∃ m, maxEltNH s = some m := by
  match s with
  | [] => exact absurd rfl h
  | x :: xs => exact ⟨_, rfl⟩

theorem NHSorted_split {m : NextHop} : ∀ {s : List NextHop}, NHSorted s → m ∈ s →
    ∃ l1 l2, s = l1 ++ m :: l2 ∧ (∀ x ∈ l1, x.nhid < m.nhid) ∧
      (∀ x ∈ l2, m.nhid < x.nhid) := by
  intro s
  induction s with
  | nil => intro _ hm; simp at hm
  | cons x xs ih =>
    intro hs hm
    obtain ⟨hx, hxs⟩ := List.pairwise_cons.mp hs
    rcases List.mem_cons.mp hm with h | h
    · subst h
      exact ⟨[], xs, rfl, by simp, hx⟩
    · obtain ⟨l1, l2, heq, h1, h2⟩ := ih hxs h
      refine ⟨x :: l1, l2, by simp [heq], ?_, h2⟩
      intro y hy
      rcases List.mem_cons.mp hy with h3 | h3
      · subst h3
        exact hx m h
      · exact h1 y h3

theorem eraseNHId_of_lt : ∀ (l1 l2 : List NextHop) (m : NextHop),
    (∀ x ∈ l1, x.nhid < m.nhid) → eraseNHId (l1 ++ m :: l2) m.nhid = l1 ++ l2 := by
  intro l1
  induction l1 with
  | nil => intro l2 m _; simp [eraseNHId]
  | cons x l1 ih =>
    intro l2 m h
    have hx := h x (by simp)
    simp only [List.cons_append, eraseNHId, if_neg (by omega : ¬ x.nhid = m.nhid)]
    show x :: eraseNHId (l1 ++ m :: l2) m.nhid = x :: (l1 ++ l2)
    rw [ih l2 m (fun y hy => h y (by simp [hy]))]

theorem insertNH_middle : ∀ (l1 l2 : List NextHop) (i w : Nat),
    (∀ x ∈ l1, x.nhid < i) → (∀ x ∈ l2, i < x.nhid) →
    insertNH (l1 ++ l2) ⟨i, w⟩ = l1 ++ (⟨i, w⟩ : NextHop) :: l2 := by
  intro l1
  induction l1 with
  | nil =>
    intro l2 i w _ h2
    match l2 with
    | [] => rfl
    | y :: t =>
      have hy := h2 y (by simp)
      simp only [List.nil_append, insertNH, if_pos (by simpa using hy)]
  | cons x l1 ih =>
    intro l2 i w h1 h2
    have hx := h1 x (by simp)
    simp only [List.cons_append, insertNH, if_neg (by simp; omega : ¬ (⟨i, w⟩ : NextHop).nhid < x.nhid),
      if_neg (by simp; omega : ¬ (⟨i, w⟩ : NextHop).nhid = x.nhid), List.cons.injEq, true_and]
    exact ih l2 i w (fun y hy => h1 y (by simp [hy])) h2

theorem NHSorted_middle_replace {l1 l2 : List NextHop} {m m2 : NextHop}
    (h : NHSorted (l1 ++ m :: l2)) (hid : m2.nhid = m.nhid) : NHSorted (l1 ++ m2 :: l2) := by
  simp only [NHSorted, List.pairwise_append, List.pairwise_cons] at h ⊢
  obtain ⟨ha, ⟨hb, hc⟩, hd⟩ := h
  refine ⟨ha, ⟨?_, hc⟩, ?_⟩
  · intro y hy
    rw [hid]
    exact hb y hy
  · intro a ha2 b hb2
    rcases List.mem_cons.mp hb2 with h3 | h3
    · subst h3
      rw [hid]
      exact hd a ha2 m (by simp)
    · exact hd a ha2 b (by simp [h3])

theorem NHSorted_middle_drop {l1 l2 : List NextHop} {m : NextHop}
    (h : NHSorted (l1 ++ m :: l2)) : NHSorted (l1 ++ l2) := by
  simp only [NHSorted, List.pairwise_append, List.pairwise_cons] at h ⊢
  obtain ⟨ha, ⟨_, hc⟩, hd⟩ := h
  exact ⟨ha, hc, fun a ha2 b hb2 => hd a ha2 b (by simp [hb2])⟩

theorem decrementMax_spec {s : List NextHop} (hs : NHSorted s)
    (hw : ∀ x ∈ s, 1 ≤ x.weight) (hne : s ≠ []) :
    NHSorted (decrementMax s) ∧ (∀ x ∈ decrementMax s, 1 ≤ x.weight) ∧
      totalWeight (decrementMax s) + 1 = totalWeight s := by
  obtain ⟨m, hm⟩ := maxEltNH_ne_nil hne
  obtain ⟨hmem, hmax⟩ := maxEltNH_spec hm
  obtain ⟨l1, l2, heq, h1, h2⟩ := NHSorted_split hs hmem
  have herase : eraseNHId s m.nhid = l1 ++ l2 := by
    rw [heq]
    exact eraseNHId_of_lt l1 l2 m h1
  have hm1 : 1 ≤ m.weight := hw m hmem
  have hs2 : NHSorted (l1 ++ m :: l2) := heq ▸ hs
  have hback : ∀ y, y ∈ l1 ++ m :: l2 → y ∈ s := by
    intro y hy
    rw [heq]
    exact hy
  simp only [decrementMax, hm]
  by_cases hcut : 0 < m.weight - 1
  · rw [if_pos hcut, herase, insertNH_middle l1 l2 m.nhid (m.weight - 1) h1 h2]
    refine ⟨NHSorted_middle_replace hs2 rfl, ?_, ?_⟩
    · intro y hy
      rcases List.mem_append.mp hy with h | h
      · exact hw y (hback y (List.mem_append.mpr (Or.inl h)))
      · rcases List.mem_cons.mp h with h | h
        · rw [h]
          show 1 ≤ m.weight - 1
          omega
        · exact hw y (hback y (List.mem_append.mpr (Or.inr (List.mem_cons.mpr (Or.inr h)))))
    · rw [heq, totalWeight_append, totalWeight_append, totalWeight_cons, totalWeight_cons]
      show totalWeight l1 + (m.weight - 1 + totalWeight l2) + 1
        = totalWeight l1 + (m.weight + totalWeight l2)
      omega
  · rw [if_neg hcut, herase]
    refine ⟨NHSorted_middle_drop hs2, ?_, ?_⟩
    · intro y hy
      rcases List.mem_append.mp hy with h | h
      · exact hw y (hback y (List.mem_append.mpr (Or.inl h)))
      · exact hw y (hback y (List.mem_append.mpr (Or.inr (List.mem_cons.mpr (Or.inr h)))))
    · rw [heq, totalWeight_append, totalWeight_append, totalWeight_cons]
      omega

theorem decrementMax_ids {s : List NextHop} (hs : NHSorted s)
    (hw : ∀ x ∈ s, 1 ≤ x.weight) (hbig : ∃ x ∈ s, 2 ≤ x.weight) :
    (decrementMax s).map NextHop.nhid = s.map NextHop.nhid ∧
      (decrementMax s).length = s.length := by
  obtain ⟨z, hz, hz2⟩ := hbig
  have hne : s ≠ [] := by intro h; subst h; simp at hz
  obtain ⟨m, hm⟩ := maxEltNH_ne_nil hne
  obtain ⟨hmem, hmax⟩ := maxEltNH_spec hm
  have hm2 : 2 ≤ m.weight := le_trans hz2 (hmax z hz)
  obtain ⟨l1, l2, heq, h1, h2⟩ := NHSorted_split hs hmem
  have herase : eraseNHId s m.nhid = l1 ++ l2 := by
    rw [heq]
    exact eraseNHId_of_lt l1 l2 m h1
  simp only [decrementMax, hm]
  rw [if_pos (by omega : 0 < m.weight - 1), herase,
    insertNH_middle l1 l2 m.nhid (m.weight - 1) h1 h2, heq]
  simp

theorem decLoop_invariant : ∀ (k : Nat) (s : List NextHop) (W : Nat), NHSorted s →
    (∀ x ∈ s, 1 ≤ x.weight) → totalWeight s = W + k →
    NHSorted (decLoop k s) ∧ (∀ x ∈ decLoop k s, 1 ≤ x.weight) ∧
      totalWeight (decLoop k s) = W := by
  intro k
  induction k with
  | zero =>
    intro s W hs hw ht
    simp only [decLoop]
    exact ⟨hs, hw, by omega⟩
  | succ k ih =>
    intro s W hs hw ht
    have hne : s ≠ [] := totalWeight_pos_ne_nil (by omega)
    obtain ⟨h1, h2, h3⟩ := decrementMax_spec hs hw hne
    simp only [decLoop]
    exact ih (decrementMax s) W h1 h2 (by omega)

theorem exists_weight_two {s : List NextHop} {W : Nat} (hw : ∀ x ∈ s, 1 ≤ x.weight)
    (hlen : s.length ≤ W) (ht : W < totalWeight s) : ∃ x ∈ s, 2 ≤ x.weight := by
  by_contra h
  push_neg at h
  have := totalWeight_le_length (s := s) (fun x hx => by have := h x hx; omega)
  omega

theorem decLoop_ids : ∀ (k : Nat) (s : List NextHop) (W : Nat), NHSorted s →
    (∀ x ∈ s, 1 ≤ x.weight) → totalWeight s = W + k → s.length ≤ W →
    (decLoop k s).map NextHop.nhid = s.map NextHop.nhid := by
  intro k
  induction k with
  | zero => intro s W _ _ _ _; simp [decLoop]
  | succ k ih =>
    intro s W hs hw ht hlen
    have hbig : ∃ x ∈ s, 2 ≤ x.weight := exists_weight_two hw hlen (by omega)
    have hne : s ≠ [] := by
      obtain ⟨z, hz, _⟩ := hbig
      intro h; subst h; simp at hz
    obtain ⟨h1, h2, h3⟩ := decrementMax_spec hs hw hne
    obtain ⟨hids, hlen2⟩ := decrementMax_ids hs hw hbig
    simp only [decLoop]
    rw [ih (decrementMax s) W h1 h2 (by omega) (by omega), hids]

/-! ### Invariants of `normalizeNextHops` -/

theorem normalize_master (W : Nat) (S : List NextHop) :
    NHSorted (normalizeNextHops W S) ∧ (∀ x ∈ normalizeNextHops W S, 1 ≤ x.weight) ∧
      totalWeight (normalizeNextHops W S) ≤ W := by
  have hNs : NHSorted (coerceNextHops S) := coerce_sorted S
  have hNw : ∀ x ∈ coerceNextHops S, 1 ≤ x.weight := coerce_weights S
  unfold normalizeNextHops
  by_cases hT : W < totalWeight (coerceNextHops S)
  · rw [if_pos hT]
    rw [scaleNextHops_eq W (totalWeight (coerceNextHops S)) hNs]
    dsimp only
    have hMs : NHSorted ((coerceNextHops S).map (scaleF W (totalWeight (coerceNextHops S)))) :=
      NHSorted_map_id_preserving (fun nh => rfl) hNs
    have hMw : ∀ x ∈ (coerceNextHops S).map (scaleF W (totalWeight (coerceNextHops S))),
        1 ≤ x.weight := by
      intro x hx
      obtain ⟨a, _, ha⟩ := List.mem_map.mp hx
      rw [← ha]
      exact Nat.le_max_right _ 1
    by_cases h2 : W < totalWeight ((coerceNextHops S).map (scaleF W (totalWeight (coerceNextHops S))))
    · rw [if_pos h2]
      obtain ⟨ha, hb, hc⟩ := decLoop_invariant
        (totalWeight ((coerceNextHops S).map (scaleF W (totalWeight (coerceNextHops S)))) - W)
        ((coerceNextHops S).map (scaleF W (totalWeight (coerceNextHops S)))) W hMs hMw (by omega)
      exact ⟨ha, hb, by omega⟩
    · rw [if_neg h2]
      exact ⟨hMs, hMw, by omega⟩
  · rw [if_neg hT]
    exact ⟨hNs, hNw, by omega⟩

theorem map_self_NH {s : List NextHop} {f : NextHop → NextHop} (h : ∀ x ∈ s, f x = x) :
    s.map f = s := by
  induction s with
  | nil => rfl
  | cons x t ih =>
    simp only [List.map_cons, h x (by simp), List.cons.injEq, true_and]
    exact ih (fun y hy => h y (by simp [hy]))

theorem normalize_fixed {N : List NextHop} {W : Nat} (hs : NHSorted N)
    (hw : ∀ x ∈ N, 1 ≤ x.weight) (ht : totalWeight N ≤ W) : normalizeNextHops W N = N := by
  have hc : coerceNextHops N = N := by
    rw [coerce_eq_map hs]
    refine map_self_NH ?_
    intro x hx
    have h1 : max x.weight 1 = x.weight := Nat.max_eq_left (hw x hx)
    rw [h1]
  unfold normalizeNextHops
  rw [hc, if_neg (by omega)]

theorem normalize_ids (W : Nat) (S : List NextHop) (hS : NHSorted S) (hlen : S.length ≤ W) :
    (normalizeNextHops W S).map NextHop.nhid = S.map NextHop.nhid := by
  have hceq := coerce_eq_map hS
  have hNs : NHSorted (coerceNextHops S) := coerce_sorted S
  have hNw : ∀ x ∈ coerceNextHops S, 1 ≤ x.weight := coerce_weights S
  have hidsN : (coerceNextHops S).map NextHop.nhid = S.map NextHop.nhid := by
    rw [hceq, List.map_map]
    rfl
  have hlenN : (coerceNextHops S).length = S.length := by
    rw [hceq, List.length_map]
  unfold normalizeNextHops
  by_cases hT : W < totalWeight (coerceNextHops S)
  · rw [if_pos hT, scaleNextHops_eq W (totalWeight (coerceNextHops S)) hNs]
    dsimp only
    have hMs : NHSorted ((coerceNextHops S).map (scaleF W (totalWeight (coerceNextHops S)))) :=
      NHSorted_map_id_preserving (fun nh => rfl) hNs
    have hMw : ∀ x ∈ (coerceNextHops S).map (scaleF W (totalWeight (coerceNextHops S))),
        1 ≤ x.weight := by
      intro x hx
      obtain ⟨a, _, ha⟩ := List.mem_map.mp hx
      rw [← ha]
      exact Nat.le_max_right _ 1
    have hidsM : ((coerceNextHops S).map (scaleF W (totalWeight (coerceNextHops S)))).map
        NextHop.nhid = (coerceNextHops S).map NextHop.nhid := by
      rw [List.map_map]
      rfl
    by_cases h2 : W <
        totalWeight ((coerceNextHops S).map (scaleF W (totalWeight (coerceNextHops S))))
    · rw [if_pos h2]
      rw [decLoop_ids
        (totalWeight ((coerceNextHops S).map (scaleF W (totalWeight (coerceNextHops S)))) - W)
        ((coerceNextHops S).map (scaleF W (totalWeight (coerceNextHops S)))) W hMs hMw
        (by omega) (by rw [List.length_map, hlenN]; omega)]
      rw [hidsM, hidsN]
    · rw [if_neg h2, hidsM, hidsN]
  · rw [if_neg hT]
    exact hidsN

/-- C3: for every next-hop set S and width W ≥ 1 with |S| ≤ W, the output of
`normalizeNextHops W S` has total weight at most W and every next hop in it
has weight at least 1. -/
theorem claim3_weight_bound (S : List NextHop) (W : Nat) (_hS : NHSorted S)
    (_hW : 1 ≤ W) (_hlen : S.length ≤ W) :
    totalWeight (normalizeNextHops W S) ≤ W ∧ ∀ x ∈ normalizeNextHops W S, 1 ≤ x.weight :=
  ⟨(normalize_master W S).2.2, (normalize_master W S).2.1⟩

theorem claim3_weight_bound_witness :
    NHSorted [(⟨0, 100⟩ : NextHop), ⟨1, 1⟩] ∧ 1 ≤ 64 ∧
      [(⟨0, 100⟩ : NextHop), ⟨1, 1⟩].length ≤ 64 ∧
      (totalWeight (normalizeNextHops 64 [⟨0, 100⟩, ⟨1, 1⟩]) ≤ 64 ∧
        ∀ x ∈ normalizeNextHops 64 [⟨0, 100⟩, ⟨1, 1⟩], 1 ≤ x.weight) :=
  ⟨by decide, by decide, by decide,
    claim3_weight_bound [⟨0, 100⟩, ⟨1, 1⟩] 64 (by decide) (by decide) (by decide)⟩

/-- C4: normalization is idempotent — for every next-hop list S and width W,
`normalizeNextHops W (normalizeNextHops W S) = normalizeNextHops W S` (with no
hypothesis at all: the inner output is always a sorted set with weights ≥ 1
and total ≤ W, on which the outer run takes the no-op path). -/
theorem claim4_idempotent (S : List NextHop) (W : Nat) :
    normalizeNextHops W (normalizeNextHops W S) = normalizeNextHops W S := by
  obtain ⟨hs, hw, ht⟩ := normalize_master W S
  exact normalize_fixed hs hw ht

/-- C10: membership preservation — for every sorted next-hop set S and width
W ≥ 1 with |S| ≤ W, `normalizeNextHops W S` contains exactly the same
(address, interface) identities as S, in the same order; only weights change,
never membership. -/
theorem claim10_membership (S : List NextHop) (W : Nat) (hS : NHSorted S)
    (_hW : 1 ≤ W) (hlen : S.length ≤ W) :
    (normalizeNextHops W S).map NextHop.nhid = S.map NextHop.nhid :=
  normalize_ids W S hS hlen

theorem claim10_membership_witness :
    NHSorted [(⟨3, 100⟩ : NextHop), ⟨7, 100⟩] ∧ 1 ≤ 64 ∧
      [(⟨3, 100⟩ : NextHop), ⟨7, 100⟩].length ≤ 64 ∧
      (normalizeNextHops 64 [⟨3, 100⟩, ⟨7, 100⟩]).map NextHop.nhid
        = [(⟨3, 100⟩ : NextHop), ⟨7, 100⟩].map NextHop.nhid :=
  ⟨by decide, by decide, by decide,
    claim10_membership [⟨3, 100⟩, ⟨7, 100⟩] 64 (by decide) (by decide) (by decide)⟩

/-- C7: when the coerced total weight T of the input exceeds the width W and
the scaled total does not overshoot, the scaling pass is the whole of
normalization and assigns each next hop of weight w the new weight
`max(1, floor(w * W / T))` (which is exactly `scaleF`); in particular
`normalizeNextHops 64 {(A,w=100),(B,w=1)}` yields weights {A:63, B:1} with
total 64, the scaled total is exactly 64, and no decrement correction runs. -/
theorem claim7_scaling :
    (∀ (S : List NextHop) (W : Nat), NHSorted S →
        W < totalWeight (coerceNextHops S) →
        (scaleNextHops W (totalWeight (coerceNextHops S)) (coerceNextHops S)).2 ≤ W →
        normalizeNextHops W S
          = (coerceNextHops S).map (scaleF W (totalWeight (coerceNextHops S)))) ∧
      normalizeNextHops 64 [⟨0, 100⟩, ⟨1, 1⟩] = [⟨0, 63⟩, ⟨1, 1⟩] ∧
      totalWeight (normalizeNextHops 64 [⟨0, 100⟩, ⟨1, 1⟩]) = 64 ∧
      (scaleNextHops 64 (totalWeight (coerceNextHops [⟨0, 100⟩, ⟨1, 1⟩]))
        (coerceNextHops [⟨0, 100⟩, ⟨1, 1⟩])).2 = 64 := by
  refine ⟨?_, by decide, by decide, by decide⟩
  intro S W hS hT h2
  have hNs : NHSorted (coerceNextHops S) := coerce_sorted S
  rw [scaleNextHops_eq W (totalWeight (coerceNextHops S)) hNs] at h2
  dsimp only at h2
  unfold normalizeNextHops
  rw [if_pos hT, scaleNextHops_eq W (totalWeight (coerceNextHops S)) hNs]
  dsimp only
  rw [if_neg (by omega)]

theorem claim7_scaling_witness :
    NHSorted [(⟨0, 100⟩ : NextHop), ⟨1, 1⟩] ∧
      64 < totalWeight (coerceNextHops [⟨0, 100⟩, ⟨1, 1⟩]) ∧
      (scaleNextHops 64 (totalWeight (coerceNextHops [⟨0, 100⟩, ⟨1, 1⟩]))
        (coerceNextHops [⟨0, 100⟩, ⟨1, 1⟩])).2 ≤ 64 ∧
      normalizeNextHops 64 [⟨0, 100⟩, ⟨1, 1⟩]
        = (coerceNextHops [⟨0, 100⟩, ⟨1, 1⟩]).map
            (scaleF 64 (totalWeight (coerceNextHops [⟨0, 100⟩, ⟨1, 1⟩]))) :=
  ⟨by decide, by decide, by decide,
    claim7_scaling.1 [⟨0, 100⟩, ⟨1, 1⟩] 64 (by decide) (by decide) (by decide)⟩

set_option maxRecDepth 100000 in
/-- C2 counterexample: with 65 distinct next hops of weight 1 and width 64,
`addRoute` returns normally (no unsupported-configuration error is reported),
the route is programmed, and normalization has silently removed next hop
(0, w=1) from the set — refuting the claim that the add path reports an error
and never removes next hops. -/
theorem claim2_counterexample :
    64 < s65.length ∧
      (bcmAddRoute platW sysEmpty 0 rWide false).out = POut.success ∧
      lookupTable (bcmAddRoute platW sysEmpty 0 rWide false).sys.table (keyOfRoute 0 rWide)
        = some ⟨true, RouteNextHopEntry.nexthops (normalizeNextHops 64 s65), 7⟩ ∧
      (⟨0, 1⟩ : NextHop) ∈ s65 ∧ (⟨0, 1⟩ : NextHop) ∉ normalizeNextHops 64 s65 := by
  decide

set_option maxRecDepth 100000 in
/-- C2 amended: when the number of distinct next hops exceeds the width, the
add path does NOT report an unsupported-configuration error — normalization
silently drops next hops whose weight is decremented to zero until the total
weight equals the width, and the route is programmed with the truncated set
(here: 65 weight-1 next hops truncated to the 64 with the larger identities,
total weight 64, and the route table call returns success). -/
theorem claim2_amended_truncation :
    (bcmAddRoute platW sysEmpty 0 rWide false).out = POut.success ∧
      (normalizeNextHops 64 s65).length = 64 ∧
      totalWeight (normalizeNextHops 64 s65) = 64 ∧
      normalizeNextHops 64 s65 = (List.range 64).map (fun i => ⟨i + 1, 1⟩) := by
  decide


/-! ### Lemmas about the event trace and the branches of `program` -/

theorem evCount_nil (e : Ev) : evCount e [] = 0 := rfl

theorem evCount_cons (e x : Ev) (l : List Ev) :
    evCount e (x :: l) = (if x = e then 1 else 0) + evCount e l := rfl

theorem evCount_append (e : Ev) (l1 l2 : List Ev) :
    evCount e (l1 ++ l2) = evCount e l1 + evCount e l2 := by
  induction l1 with
  | nil => simp [evCount_nil]
  | cons x t ih => simp only [List.cons_append, evCount_cons, ih]; omega

theorem program_noop {plat : Platform} {cfg : RouteCfg} {st : RouteState}
    {wb : WarmBootCache} {hw : HwState} {fwd : RouteNextHopEntry} {hwFail : Bool}
    (h1 : st.added = true) (h2 : fwd = st.fwd) :
    program plat cfg st wb hw fwd hwFail = ⟨POut.success, st, wb, hw, []⟩ := by
  unfold program
  rw [if_pos ⟨h1, h2⟩]

theorem programHostPath_fail (cfg : RouteCfg) (st : RouteState) (wb : WarmBootCache)
    (hw : HwState) (fwd : RouteNextHopEntry) (egressId : Nat) :
    programHostPath cfg st wb hw fwd egressId true
      = ⟨POut.threw, st, wb, hw,
          (if st.added = true then [Ev.derefHost cfg.vrf cfg.addr] else [])
            ++ [Ev.incHost cfg.vrf cfg.addr, Ev.derefHost cfg.vrf cfg.addr]
            ++ cleanupHostEvs cfg.vrf fwd.getNextHopSet⟩ := rfl

theorem programHostPath_ok (cfg : RouteCfg) (st : RouteState) (wb : WarmBootCache)
    (hw : HwState) (fwd : RouteNextHopEntry) (egressId : Nat) :
    programHostPath cfg st wb hw fwd egressId false
      = ⟨POut.success, ⟨true, fwd, egressId⟩,
          (if decide ((cfg.vrf, cfg.addr) ∈ wb.hostRoutes) = true
           then wbConsumeHost wb (cfg.vrf, cfg.addr) else wb),
          (if decide ((cfg.vrf, cfg.addr) ∈ wb.hostRoutes) = true
           then hwEraseLpm hw (cfg.vrf, cfg.addr, cfg.len) else hw),
          (if st.added = true then [Ev.derefHost cfg.vrf cfg.addr] else [])
            ++ [Ev.incHost cfg.vrf cfg.addr,
                Ev.hostWrite cfg.vrf cfg.addr (decide (1 < fwd.getNextHopSet.length))
                  (decide ((cfg.vrf, cfg.addr) ∈ wb.hostRoutes))]
            ++ (if st.added = true then cleanupHostEvs cfg.vrf st.fwd.getNextHopSet else [])⟩ :=
  rfl

theorem programLpmPath_fail_none (cfg : RouteCfg) (st : RouteState) (wb : WarmBootCache)
    (hw : HwState) (fwd : RouteNextHopEntry) (egressId : Nat)
    (hnone : wbLookupLpm wb (cfg.vrf, cfg.addr, cfg.len) = none) :
    programLpmPath cfg st wb hw fwd egressId true
      = ⟨POut.threw, st, wb, hw, cleanupHostEvs cfg.vrf fwd.getNextHopSet⟩ := by
  simp only [programLpmPath]
  rw [hnone]
  rfl

theorem programLpmPath_fail_some (cfg : RouteCfg) (st : RouteState) (wb : WarmBootCache)
    (hw : HwState) (fwd : RouteNextHopEntry) (egressId : Nat) (d : LpmDescr)
    (hsome : wbLookupLpm wb (cfg.vrf, cfg.addr, cfg.len) = some d)
    (hne : ¬ d = (⟨cfg.isV6, decide (1 < fwd.getNextHopSet.length), egressId⟩ : LpmDescr)) :
    programLpmPath cfg st wb hw fwd egressId true
      = ⟨POut.threw, st, wb, hw, cleanupHostEvs cfg.vrf fwd.getNextHopSet⟩ := by
  simp only [programLpmPath]
  rw [hsome]
  simp only [if_neg hne]
  rfl

theorem programLpmPath_ok_none (cfg : RouteCfg) (st : RouteState) (wb : WarmBootCache)
    (hw : HwState) (fwd : RouteNextHopEntry) (egressId : Nat)
    (hnone : wbLookupLpm wb (cfg.vrf, cfg.addr, cfg.len) = none) :
    programLpmPath cfg st wb hw fwd egressId false
      = ⟨POut.success, ⟨true, fwd, egressId⟩, wb, hwInsertLpm hw (cfg.vrf, cfg.addr, cfg.len),
          Ev.lpmWrite cfg.vrf cfg.addr cfg.len cfg.isV6
              (decide (1 < fwd.getNextHopSet.length)) st.added egressId
            :: (if st.added = true then cleanupHostEvs cfg.vrf st.fwd.getNextHopSet else [])⟩ := by
  simp only [programLpmPath]
  rw [hnone]
  rfl

theorem programLpmPath_ok_some_eq (cfg : RouteCfg) (st : RouteState) (wb : WarmBootCache)
    (hw : HwState) (fwd : RouteNextHopEntry) (egressId : Nat) (hwFail : Bool) (d : LpmDescr)
    (hsome : wbLookupLpm wb (cfg.vrf, cfg.addr, cfg.len) = some d)
    (heq : d = (⟨cfg.isV6, decide (1 < fwd.getNextHopSet.length), egressId⟩ : LpmDescr)) :
    programLpmPath cfg st wb hw fwd egressId hwFail
      = ⟨POut.success, ⟨true, fwd, egressId⟩, wbConsumeLpm wb (cfg.vrf, cfg.addr, cfg.len), hw,
          (if st.added = true then cleanupHostEvs cfg.vrf st.fwd.getNextHopSet else [])⟩ := by
  simp only [programLpmPath]
  rw [hsome]
  simp only [if_pos heq]

theorem programLpmPath_ok_some_ne (cfg : RouteCfg) (st : RouteState) (wb : WarmBootCache)
    (hw : HwState) (fwd : RouteNextHopEntry) (egressId : Nat) (d : LpmDescr)
    (hsome : wbLookupLpm wb (cfg.vrf, cfg.addr, cfg.len) = some d)
    (hne : ¬ d = (⟨cfg.isV6, decide (1 < fwd.getNextHopSet.length), egressId⟩ : LpmDescr)) :
    programLpmPath cfg st wb hw fwd egressId false
      = ⟨POut.success, ⟨true, fwd, egressId⟩, wbConsumeLpm wb (cfg.vrf, cfg.addr, cfg.len),
          hwInsertLpm hw (cfg.vrf, cfg.addr, cfg.len),
          Ev.lpmWrite cfg.vrf cfg.addr cfg.len cfg.isV6
              (decide (1 < fwd.getNextHopSet.length)) true egressId
            :: (if st.added = true then cleanupHostEvs cfg.vrf st.fwd.getNextHopSet else [])⟩ := by
  simp only [programLpmPath]
  rw [hsome]
  simp only [if_neg hne]
  rfl

theorem program_drop (plat : Platform) (cfg : RouteCfg) (st : RouteState)
    (wb : WarmBootCache) (hw : HwState) (hwFail : Bool)
    (hnoop : ¬ (st.added = true ∧ RouteNextHopEntry.drop = st.fwd)) :
    program plat cfg st wb hw RouteNextHopEntry.drop hwFail
      = programCore plat cfg st wb hw RouteNextHopEntry.drop plat.dropEgressId hwFail := by
  unfold program
  rw [if_neg hnoop]

theorem program_toCPU (plat : Platform) (cfg : RouteCfg) (st : RouteState)
    (wb : WarmBootCache) (hw : HwState) (hwFail : Bool)
    (hnoop : ¬ (st.added = true ∧ RouteNextHopEntry.toCPU = st.fwd)) :
    program plat cfg st wb hw RouteNextHopEntry.toCPU hwFail
      = programCore plat cfg st wb hw RouteNextHopEntry.toCPU plat.toCPUEgressId hwFail := by
  unfold program
  rw [if_neg hnoop]

theorem program_nexthops_nil (plat : Platform) (cfg : RouteCfg) (st : RouteState)
    (wb : WarmBootCache) (hw : HwState) (hwFail : Bool)
    (hnoop : ¬ (st.added = true ∧ RouteNextHopEntry.nexthops [] = st.fwd)) :
    program plat cfg st wb hw (RouteNextHopEntry.nexthops []) hwFail
      = ⟨POut.aborted, st, wb, hw, []⟩ := by
  unfold program
  rw [if_neg hnoop]
  rfl

theorem program_nexthops (plat : Platform) (cfg : RouteCfg) (st : RouteState)
    (wb : WarmBootCache) (hw : HwState) (nhops : List NextHop) (hwFail : Bool)
    (hnoop : ¬ (st.added = true ∧ RouteNextHopEntry.nexthops nhops = st.fwd))
    (hne : ¬ nhops = []) :
    program plat cfg st wb hw (RouteNextHopEntry.nexthops nhops) hwFail
      = ⟨(programCore plat cfg st wb hw (RouteNextHopEntry.nexthops nhops)
            (plat.ecmpEgressId cfg.vrf nhops) hwFail).out,
         (programCore plat cfg st wb hw (RouteNextHopEntry.nexthops nhops)
            (plat.ecmpEgressId cfg.vrf nhops) hwFail).st,
         (programCore plat cfg st wb hw (RouteNextHopEntry.nexthops nhops)
            (plat.ecmpEgressId cfg.vrf nhops) hwFail).wb,
         (programCore plat cfg st wb hw (RouteNextHopEntry.nexthops nhops)
            (plat.ecmpEgressId cfg.vrf nhops) hwFail).hw,
         Ev.incEcmp cfg.vrf nhops
           :: (programCore plat cfg st wb hw (RouteNextHopEntry.nexthops nhops)
                (plat.ecmpEgressId cfg.vrf nhops) hwFail).evs⟩ := by
  unfold program
  rw [if_neg hnoop]
  simp only [if_neg hne]

/-- C6: no-op skip — if a route entry is already programmed (`added_` true)
and `program` is called again with a forwarding decision equal to the stored
one, the call returns immediately with an empty collaborator-call trace (zero
hardware writes, zero egress acquire/release operations) and the entry state,
warm boot cache and hardware state all unchanged. -/
theorem claim6_noop_skip (plat : Platform) (cfg : RouteCfg) (st : RouteState)
    (wb : WarmBootCache) (hw : HwState) (fwd : RouteNextHopEntry) (hwFail : Bool)
    (h1 : st.added = true) (h2 : fwd = st.fwd) :
    program plat cfg st wb hw fwd hwFail = ⟨POut.success, st, wb, hw, []⟩ :=
  program_noop h1 h2

theorem claim6_noop_skip_witness :
    (⟨true, RouteNextHopEntry.nexthops [⟨1, 1⟩], 7⟩ : RouteState).added = true ∧
      RouteNextHopEntry.nexthops [⟨1, 1⟩]
        = (⟨true, RouteNextHopEntry.nexthops [⟨1, 1⟩], 7⟩ : RouteState).fwd ∧
      program platW ⟨0, false, 10, 24⟩ ⟨true, RouteNextHopEntry.nexthops [⟨1, 1⟩], 7⟩
          ⟨[], []⟩ ⟨[]⟩ (RouteNextHopEntry.nexthops [⟨1, 1⟩]) false
        = ⟨POut.success, ⟨true, RouteNextHopEntry.nexthops [⟨1, 1⟩], 7⟩, ⟨[], []⟩, ⟨[]⟩, []⟩ :=
  ⟨rfl, rfl,
    claim6_noop_skip platW ⟨0, false, 10, 24⟩ ⟨true, RouteNextHopEntry.nexthops [⟨1, 1⟩], 7⟩
      ⟨[], []⟩ ⟨[]⟩ (RouteNextHopEntry.nexthops [⟨1, 1⟩]) false rfl rfl⟩

/-- C1: rollback on failure — whenever the hardware write inside `program`
throws, the entry's observable state (`fwd_`, `egressId_`, `added_`), the warm
boot cache and the hardware state are unchanged from before the call, every
ecmp egress reference acquired during the call has been released (the acquire
and release counts in the call's trace are equal for every (vrf, next-hop-set)
key), and every host reference acquired during the call has been released
(release count at least the acquire count for every (vrf, address) key — in
the previously-programmed host-shortcut case an additional release of the old
host reference occurs). -/
theorem claim1_rollback (plat : Platform) (cfg : RouteCfg) (st : RouteState)
    (wb : WarmBootCache) (hw : HwState) (fwd : RouteNextHopEntry)
    (vrf2 : Nat) (nhops2 : List NextHop) (av ap : Nat)
    (h : (program plat cfg st wb hw fwd true).out = POut.threw) :
    (program plat cfg st wb hw fwd true).st = st ∧
      (program plat cfg st wb hw fwd true).wb = wb ∧
      (program plat cfg st wb hw fwd true).hw = hw ∧
      evCount (Ev.incEcmp vrf2 nhops2) (program plat cfg st wb hw fwd true).evs
        = evCount (Ev.derefEcmp vrf2 nhops2) (program plat cfg st wb hw fwd true).evs ∧
      evCount (Ev.incHost av ap) (program plat cfg st wb hw fwd true).evs
        ≤ evCount (Ev.derefHost av ap) (program plat cfg st wb hw fwd true).evs := by
  by_cases hnoop : st.added = true ∧ fwd = st.fwd
  · rw [program_noop hnoop.1 hnoop.2] at h
    simp at h
  · cases fwd with
    | drop =>
      rw [program_drop plat cfg st wb hw true hnoop] at h ⊢
      unfold programCore at h ⊢
      by_cases hhost : canUseHostTable plat cfg = true
      · rw [if_pos hhost] at h ⊢
        rw [programHostPath_fail] at h ⊢
        refine ⟨rfl, rfl, rfl, ?_, ?_⟩ <;>
          by_cases hadd : st.added = true <;>
            simp [hadd, cleanupHostEvs, RouteNextHopEntry.getNextHopSet,
              evCount_append, evCount_cons, evCount_nil] <;>
            first | omega | (split_ifs <;> omega)
      · rw [if_neg hhost] at h ⊢
        rcases hwb : wbLookupLpm wb (cfg.vrf, cfg.addr, cfg.len) with _ | d
        · rw [programLpmPath_fail_none cfg st wb hw RouteNextHopEntry.drop
            plat.dropEgressId hwb] at h ⊢
          refine ⟨rfl, rfl, rfl, ?_, ?_⟩ <;>
            simp [cleanupHostEvs, RouteNextHopEntry.getNextHopSet, evCount_nil]
        · by_cases heqv : d = (⟨cfg.isV6,
              decide (1 < (RouteNextHopEntry.drop).getNextHopSet.length),
              plat.dropEgressId⟩ : LpmDescr)
          · rw [programLpmPath_ok_some_eq cfg st wb hw RouteNextHopEntry.drop
              plat.dropEgressId true d hwb heqv] at h
            simp at h
          · rw [programLpmPath_fail_some cfg st wb hw RouteNextHopEntry.drop
              plat.dropEgressId d hwb heqv] at h ⊢
            refine ⟨rfl, rfl, rfl, ?_, ?_⟩ <;>
              simp [cleanupHostEvs, RouteNextHopEntry.getNextHopSet, evCount_nil]
    | toCPU =>
      rw [program_toCPU plat cfg st wb hw true hnoop] at h ⊢
      unfold programCore at h ⊢
      by_cases hhost : canUseHostTable plat cfg = true
      · rw [if_pos hhost] at h ⊢
        rw [programHostPath_fail] at h ⊢
        refine ⟨rfl, rfl, rfl, ?_, ?_⟩ <;>
          by_cases hadd : st.added = true <;>
            simp [hadd, cleanupHostEvs, RouteNextHopEntry.getNextHopSet,
              evCount_append, evCount_cons, evCount_nil] <;>
            first | omega | (split_ifs <;> omega)
      · rw [if_neg hhost] at h ⊢
        rcases hwb : wbLookupLpm wb (cfg.vrf, cfg.addr, cfg.len) with _ | d
        · rw [programLpmPath_fail_none cfg st wb hw RouteNextHopEntry.toCPU
            plat.toCPUEgressId hwb] at h ⊢
          refine ⟨rfl, rfl, rfl, ?_, ?_⟩ <;>
            simp [cleanupHostEvs, RouteNextHopEntry.getNextHopSet, evCount_nil]
        · by_cases heqv : d = (⟨cfg.isV6,
              decide (1 < (RouteNextHopEntry.toCPU).getNextHopSet.length),
              plat.toCPUEgressId⟩ : LpmDescr)
          · rw [programLpmPath_ok_some_eq cfg st wb hw RouteNextHopEntry.toCPU
              plat.toCPUEgressId true d hwb heqv] at h
            simp at h
          · rw [programLpmPath_fail_some cfg st wb hw RouteNextHopEntry.toCPU
              plat.toCPUEgressId d hwb heqv] at h ⊢
            refine ⟨rfl, rfl, rfl, ?_, ?_⟩ <;>
              simp [cleanupHostEvs, RouteNextHopEntry.getNextHopSet, evCount_nil]
    | nexthops nhops =>
      by_cases hne : nhops = []
      · subst hne
        rw [program_nexthops_nil plat cfg st wb hw true hnoop] at h
        simp at h
      · rw [program_nexthops plat cfg st wb hw nhops true hnoop hne] at h ⊢
        dsimp only at h ⊢
        unfold programCore at h ⊢
        by_cases hhost : canUseHostTable plat cfg = true
        · rw [if_pos hhost] at h ⊢
          rw [programHostPath_fail] at h ⊢
          refine ⟨rfl, rfl, rfl, ?_, ?_⟩ <;>
            by_cases hadd : st.added = true <;>
              simp [hadd, cleanupHostEvs, hne, RouteNextHopEntry.getNextHopSet,
                evCount_append, evCount_cons, evCount_nil] <;>
              first | omega | (split_ifs <;> omega)
        · rw [if_neg hhost] at h ⊢
          rcases hwb : wbLookupLpm wb (cfg.vrf, cfg.addr, cfg.len) with _ | d
          · rw [programLpmPath_fail_none cfg st wb hw (RouteNextHopEntry.nexthops nhops)
              (plat.ecmpEgressId cfg.vrf nhops) hwb] at h ⊢
            refine ⟨rfl, rfl, rfl, ?_, ?_⟩ <;>
              simp [cleanupHostEvs, hne, RouteNextHopEntry.getNextHopSet,
                evCount_cons, evCount_nil] <;>
              first | omega | (split_ifs <;> omega)
          · by_cases heqv : d = (⟨cfg.isV6,
                decide (1 < (RouteNextHopEntry.nexthops nhops).getNextHopSet.length),
                plat.ecmpEgressId cfg.vrf nhops⟩ : LpmDescr)
            · rw [programLpmPath_ok_some_eq cfg st wb hw (RouteNextHopEntry.nexthops nhops)
                (plat.ecmpEgressId cfg.vrf nhops) true d hwb heqv] at h
              simp at h
            · rw [programLpmPath_fail_some cfg st wb hw (RouteNextHopEntry.nexthops nhops)
                (plat.ecmpEgressId cfg.vrf nhops) d hwb heqv] at h ⊢
              refine ⟨rfl, rfl, rfl, ?_, ?_⟩ <;>
                simp [cleanupHostEvs, hne, RouteNextHopEntry.getNextHopSet,
                  evCount_cons, evCount_nil] <;>
                first | omega | (split_ifs <;> omega)

theorem claim1_rollback_witness :
    (program platHostW ⟨0, false, 10, 32⟩ ⟨true, RouteNextHopEntry.nexthops [⟨1, 1⟩], 7⟩
        ⟨[(0, 10)], []⟩ ⟨[(0, 10, 32)]⟩ (RouteNextHopEntry.nexthops [⟨2, 1⟩]) true).out
      = POut.threw ∧
      ((program platHostW ⟨0, false, 10, 32⟩ ⟨true, RouteNextHopEntry.nexthops [⟨1, 1⟩], 7⟩
          ⟨[(0, 10)], []⟩ ⟨[(0, 10, 32)]⟩ (RouteNextHopEntry.nexthops [⟨2, 1⟩]) true).st
          = ⟨true, RouteNextHopEntry.nexthops [⟨1, 1⟩], 7⟩ ∧
        (program platHostW ⟨0, false, 10, 32⟩ ⟨true, RouteNextHopEntry.nexthops [⟨1, 1⟩], 7⟩
          ⟨[(0, 10)], []⟩ ⟨[(0, 10, 32)]⟩ (RouteNextHopEntry.nexthops [⟨2, 1⟩]) true).wb
          = ⟨[(0, 10)], []⟩ ∧
        (program platHostW ⟨0, false, 10, 32⟩ ⟨true, RouteNextHopEntry.nexthops [⟨1, 1⟩], 7⟩
          ⟨[(0, 10)], []⟩ ⟨[(0, 10, 32)]⟩ (RouteNextHopEntry.nexthops [⟨2, 1⟩]) true).hw
          = ⟨[(0, 10, 32)]⟩ ∧
        evCount (Ev.incEcmp 0 [⟨2, 1⟩])
            (program platHostW ⟨0, false, 10, 32⟩ ⟨true, RouteNextHopEntry.nexthops [⟨1, 1⟩], 7⟩
              ⟨[(0, 10)], []⟩ ⟨[(0, 10, 32)]⟩ (RouteNextHopEntry.nexthops [⟨2, 1⟩]) true).evs
          = evCount (Ev.derefEcmp 0 [⟨2, 1⟩])
              (program platHostW ⟨0, false, 10, 32⟩ ⟨true, RouteNextHopEntry.nexthops [⟨1, 1⟩], 7⟩
                ⟨[(0, 10)], []⟩ ⟨[(0, 10, 32)]⟩ (RouteNextHopEntry.nexthops [⟨2, 1⟩]) true).evs ∧
        evCount (Ev.incHost 0 10)
            (program platHostW ⟨0, false, 10, 32⟩ ⟨true, RouteNextHopEntry.nexthops [⟨1, 1⟩], 7⟩
              ⟨[(0, 10)], []⟩ ⟨[(0, 10, 32)]⟩ (RouteNextHopEntry.nexthops [⟨2, 1⟩]) true).evs
          ≤ evCount (Ev.derefHost 0 10)
              (program platHostW ⟨0, false, 10, 32⟩ ⟨true, RouteNextHopEntry.nexthops [⟨1, 1⟩], 7⟩
                ⟨[(0, 10)], []⟩ ⟨[(0, 10, 32)]⟩ (RouteNextHopEntry.nexthops [⟨2, 1⟩]) true).evs) :=
  ⟨by decide,
    claim1_rollback platHostW ⟨0, false, 10, 32⟩ ⟨true, RouteNextHopEntry.nexthops [⟨1, 1⟩], 7⟩
      ⟨[(0, 10)], []⟩ ⟨[(0, 10, 32)]⟩ (RouteNextHopEntry.nexthops [⟨2, 1⟩]) 0 [⟨2, 1⟩] 0 10
      (by decide)⟩

/-- C8: host shortcut installation — for a route whose prefix is full length
for its family (`isHostRouteCfg`), when the platform supports host-table
shortcuts and the warm boot snapshot contains an LPM route-table entry for the
exact (vrf, address), a (non-no-op) successful `program` call installs the
host-shortcut representation (the `addToBcmHostTable` write with
`replace = true` appears in the trace), the pre-existing LPM entry is deleted
from hardware as part of that installation, and the snapshot entry is marked
consumed (removed from the cache). -/
theorem claim8_host_shortcut (plat : Platform) (cfg : RouteCfg) (st : RouteState)
    (wb : WarmBootCache) (hw : HwState) (fwd : RouteNextHopEntry)
    (hhost : isHostRouteCfg cfg = true)
    (hplat : plat.canUseHostTableForHostRoutes = true)
    (hwb : (cfg.vrf, cfg.addr) ∈ wb.hostRoutes)
    (hnoop : ¬ (st.added = true ∧ fwd = st.fwd))
    (hfwd : ∀ l, fwd = RouteNextHopEntry.nexthops l → ¬ l = []) :
    (program plat cfg st wb hw fwd false).out = POut.success ∧
      Ev.hostWrite cfg.vrf cfg.addr (decide (1 < fwd.getNextHopSet.length)) true
        ∈ (program plat cfg st wb hw fwd false).evs ∧
      (cfg.vrf, cfg.addr, cfg.len) ∉ (program plat cfg st wb hw fwd false).hw.lpmKeys ∧
      (cfg.vrf, cfg.addr) ∉ (program plat cfg st wb hw fwd false).wb.hostRoutes := by
  have hcan : canUseHostTable plat cfg = true := by
    simp [canUseHostTable, hhost, hplat]
  have hdec : decide ((cfg.vrf, cfg.addr) ∈ wb.hostRoutes) = true := decide_eq_true hwb
  cases fwd with
  | drop =>
    rw [program_drop plat cfg st wb hw false hnoop]
    unfold programCore
    rw [if_pos hcan, programHostPath_ok, hdec]
    refine ⟨rfl, ?_, ?_, ?_⟩
    · simp
    · simp [hwEraseLpm, List.mem_filter]
    · simp [wbConsumeHost, List.mem_filter]
  | toCPU =>
    rw [program_toCPU plat cfg st wb hw false hnoop]
    unfold programCore
    rw [if_pos hcan, programHostPath_ok, hdec]
    refine ⟨rfl, ?_, ?_, ?_⟩
    · simp
    · simp [hwEraseLpm, List.mem_filter]
    · simp [wbConsumeHost, List.mem_filter]
  | nexthops nhops =>
    have hne : ¬ nhops = [] := hfwd nhops rfl
    rw [program_nexthops plat cfg st wb hw nhops false hnoop hne]
    dsimp only
    unfold programCore
    rw [if_pos hcan, programHostPath_ok, hdec]
    refine ⟨rfl, ?_, ?_, ?_⟩
    · simp
    · simp [hwEraseLpm, List.mem_filter]
    · simp [wbConsumeHost, List.mem_filter]

theorem claim8_host_shortcut_witness :
    isHostRouteCfg ⟨0, false, 10, 32⟩ = true ∧
      platHostW.canUseHostTableForHostRoutes = true ∧
      ((0 : Nat), (10 : Nat)) ∈ (⟨[(0, 10)], []⟩ : WarmBootCache).hostRoutes ∧
      ((program platHostW ⟨0, false, 10, 32⟩ initRouteState ⟨[(0, 10)], []⟩ ⟨[(0, 10, 32)]⟩
          (RouteNextHopEntry.nexthops [⟨2, 1⟩]) false).out = POut.success ∧
        Ev.hostWrite 0 10
            (decide (1 < (RouteNextHopEntry.nexthops [⟨2, 1⟩]).getNextHopSet.length)) true
          ∈ (program platHostW ⟨0, false, 10, 32⟩ initRouteState ⟨[(0, 10)], []⟩ ⟨[(0, 10, 32)]⟩
              (RouteNextHopEntry.nexthops [⟨2, 1⟩]) false).evs ∧
        ((0 : Nat), (10 : Nat), (32 : Nat))
          ∉ (program platHostW ⟨0, false, 10, 32⟩ initRouteState ⟨[(0, 10)], []⟩ ⟨[(0, 10, 32)]⟩
              (RouteNextHopEntry.nexthops [⟨2, 1⟩]) false).hw.lpmKeys ∧
        ((0 : Nat), (10 : Nat))
          ∉ (program platHostW ⟨0, false, 10, 32⟩ initRouteState ⟨[(0, 10)], []⟩ ⟨[(0, 10, 32)]⟩
              (RouteNextHopEntry.nexthops [⟨2, 1⟩]) false).wb.hostRoutes) :=
  ⟨by decide, by decide, by decide,
    claim8_host_shortcut platHostW ⟨0, false, 10, 32⟩ initRouteState ⟨[(0, 10)], []⟩
      ⟨[(0, 10, 32)]⟩ (RouteNextHopEntry.nexthops [⟨2, 1⟩]) (by decide) (by decide) (by decide)
      (by decide) (fun l hl => by cases hl; decide)⟩

theorem destroyRoute_not_added (plat : Platform) (cfg : RouteCfg) (st : RouteState)
    (hw : HwState) (hadd : st.added = false) :
    destroyRoute plat cfg st hw = (hw, []) := by
  unfold destroyRoute
  rw [if_pos hadd]

theorem destroyRoute_added_host (plat : Platform) (cfg : RouteCfg) (st : RouteState)
    (hw : HwState) (hadd : st.added = true) (hcan : canUseHostTable plat cfg = true) :
    destroyRoute plat cfg st hw
      = (hw, [Ev.derefHost cfg.vrf cfg.addr]
               ++ cleanupHostEvs cfg.vrf st.fwd.getNextHopSet) := by
  unfold destroyRoute
  rw [hadd, if_neg (show ¬ (true = false) by simp), if_pos hcan]

theorem destroyRoute_added_lpm (plat : Platform) (cfg : RouteCfg) (st : RouteState)
    (hw : HwState) (hadd : st.added = true) (hcan : ¬ canUseHostTable plat cfg = true) :
    destroyRoute plat cfg st hw
      = (hwEraseLpm hw (cfg.vrf, cfg.addr, cfg.len),
         [Ev.lpmDelete cfg.vrf cfg.addr cfg.len]
           ++ cleanupHostEvs cfg.vrf st.fwd.getNextHopSet) := by
  unfold destroyRoute
  rw [hadd, if_neg (show ¬ (true = false) by simp), if_neg hcan]

/-- C9: deleteRoute — for a key not present in the route table, the call
throws a not-found error and leaves the whole system state (table, caches,
hardware, trace) unchanged; for a present key (whose entry is programmed), it
erases the entry, and the destructor deletes the entry's hardware
representation (host-table dereference on the host path, or LPM delete with
the key removed from hardware on the LPM path) and releases the entry's ecmp
egress reference. -/
theorem claim9_delete (plat : Platform) (s : Sys) (vrf : Nat) (r : RouteIn) :
    (lookupTable s.table (keyOfRoute vrf r) = none →
      bcmDeleteRoute plat s vrf r = ⟨POut.threw, s⟩) ∧
    (∀ st, lookupTable s.table (keyOfRoute vrf r) = some st → st.added = true →
      (bcmDeleteRoute plat s vrf r).out = POut.success ∧
      (bcmDeleteRoute plat s vrf r).sys.table = removeKey s.table (keyOfRoute vrf r) ∧
      (if canUseHostTable plat (cfgOfKey (keyOfRoute vrf r)) = true
       then Ev.derefHost vrf r.network ∈ (bcmDeleteRoute plat s vrf r).sys.evs
       else Ev.lpmDelete vrf r.network r.mask ∈ (bcmDeleteRoute plat s vrf r).sys.evs ∧
         (vrf, r.network, r.mask) ∉ (bcmDeleteRoute plat s vrf r).sys.hw.lpmKeys) ∧
      (∀ l, st.fwd = RouteNextHopEntry.nexthops l → ¬ l = [] →
        Ev.derefEcmp vrf l ∈ (bcmDeleteRoute plat s vrf r).sys.evs)) := by
  constructor
  · intro h
    simp only [bcmDeleteRoute]
    rw [h]
  · intro st hlook hadd
    simp only [bcmDeleteRoute]
    rw [hlook]
    dsimp only
    by_cases hcan : canUseHostTable plat (cfgOfKey (keyOfRoute vrf r)) = true
    · rw [destroyRoute_added_host plat (cfgOfKey (keyOfRoute vrf r)) st s.hw hadd hcan,
        if_pos hcan]
      refine ⟨rfl, rfl, ?_, ?_⟩
      · simp [keyOfRoute, cfgOfKey]
      · intro l hfwd hlne
        simp [keyOfRoute, cfgOfKey, hfwd, cleanupHostEvs, hlne,
          RouteNextHopEntry.getNextHopSet]
    · rw [destroyRoute_added_lpm plat (cfgOfKey (keyOfRoute vrf r)) st s.hw hadd hcan,
        if_neg hcan]
      refine ⟨rfl, rfl, ⟨?_, ?_⟩, ?_⟩
      · simp [keyOfRoute, cfgOfKey]
      · simp [keyOfRoute, cfgOfKey, hwEraseLpm, List.mem_filter]
      · intro l hfwd hlne
        simp [keyOfRoute, cfgOfKey, hfwd, cleanupHostEvs, hlne,
          RouteNextHopEntry.getNextHopSet]

theorem claim9_delete_witness :
    lookupTable (⟨[], ⟨[], []⟩, ⟨[]⟩, []⟩ : Sys).table (keyOfRoute 0 ⟨false, 10, 24, true,
        RouteNextHopEntry.nexthops [⟨1, 1⟩]⟩) = none ∧
      bcmDeleteRoute platW ⟨[], ⟨[], []⟩, ⟨[]⟩, []⟩ 0
          ⟨false, 10, 24, true, RouteNextHopEntry.nexthops [⟨1, 1⟩]⟩
        = ⟨POut.threw, ⟨[], ⟨[], []⟩, ⟨[]⟩, []⟩⟩ :=
  ⟨by decide,
    (claim9_delete platW ⟨[], ⟨[], []⟩, ⟨[]⟩, []⟩ 0
      ⟨false, 10, 24, true, RouteNextHopEntry.nexthops [⟨1, 1⟩]⟩).1 (by decide)⟩

/-! ### Counting lemmas for the refcount-conservation invariant -/

theorem pointing_nil (vrf : Nat) (nhops : List NextHop) : pointing vrf nhops [] = 0 := rfl

theorem pointing_cons (vrf : Nat) (nhops : List NextHop) (p : RouteKey × RouteState)
    (t : List (RouteKey × RouteState)) :
    pointing vrf nhops (p :: t)
      = (if p.2.added = true ∧ p.1.vrf = vrf ∧ p.2.fwd = RouteNextHopEntry.nexthops nhops
         then 1 else 0) + pointing vrf nhops t := rfl

theorem pointing_append_single (vrf : Nat) (nhops : List NextHop)
    (tbl : List (RouteKey × RouteState)) (k : RouteKey) (st : RouteState) :
    pointing vrf nhops (tbl ++ [(k, st)])
      = pointing vrf nhops tbl
        + (if st.added = true ∧ k.vrf = vrf ∧ st.fwd = RouteNextHopEntry.nexthops nhops
           then 1 else 0) := by
  induction tbl with
  | nil => simp [pointing_nil, pointing_cons]
  | cons p t ih =>
    simp only [List.cons_append, pointing_cons, ih]
    omega

theorem lookupTable_mem : ∀ (tbl : List (RouteKey × RouteState)) (k : RouteKey)
    (e : RouteState), lookupTable tbl k = some e → (k, e) ∈ tbl := by
  intro tbl
  induction tbl with
  | nil => intro k e h; simp [lookupTable] at h
  | cons p t ih =>
    intro k e h
    obtain ⟨k1, v1⟩ := p
    simp only [lookupTable] at h
    by_cases hk : k1 = k
    · rw [if_pos hk] at h
      obtain rfl : v1 = e := by simpa using h
      subst hk
      simp
    · rw [if_neg hk] at h
      exact List.mem_cons.mpr (Or.inr (ih k e h))

theorem setTable_self : ∀ (tbl : List (RouteKey × RouteState)) (k : RouteKey)
    (e : RouteState), lookupTable tbl k = some e → setTable tbl k e = tbl := by
  intro tbl
  induction tbl with
  | nil => intro k e _; rfl
  | cons p t ih =>
    intro k e h
    obtain ⟨k1, v1⟩ := p
    simp only [lookupTable] at h
    simp only [setTable]
    by_cases hk : k1 = k
    · rw [if_pos hk] at h
      obtain rfl : v1 = e := by simpa using h
      rw [if_pos hk, hk]
    · rw [if_neg hk] at h
      rw [if_neg hk, ih k e h]

theorem mem_setTable : ∀ (tbl : List (RouteKey × RouteState)) (k : RouteKey)
    (st2 : RouteState) (q : RouteKey × RouteState),
    q ∈ setTable tbl k st2 → q ∈ tbl ∨ q = (k, st2) := by
  intro tbl
  induction tbl with
  | nil => intro k st2 q h; simp [setTable] at h
  | cons p t ih =>
    intro k st2 q h
    obtain ⟨k1, v1⟩ := p
    simp only [setTable] at h
    by_cases hk : k1 = k
    · rw [if_pos hk] at h
      rcases List.mem_cons.mp h with h | h
      · subst hk
        exact Or.inr h
      · exact Or.inl (List.mem_cons.mpr (Or.inr h))
    · rw [if_neg hk] at h
      rcases List.mem_cons.mp h with h | h
      · exact Or.inl (List.mem_cons.mpr (Or.inl h))
      · rcases ih k st2 q h with h | h
        · exact Or.inl (List.mem_cons.mpr (Or.inr h))
        · exact Or.inr h

theorem mem_removeKey : ∀ (tbl : List (RouteKey × RouteState)) (k : RouteKey)
    (q : RouteKey × RouteState), q ∈ removeKey tbl k → q ∈ tbl := by
  intro tbl
  induction tbl with
  | nil => intro k q h; simp [removeKey] at h
  | cons p t ih =>
    intro k q h
    obtain ⟨k1, v1⟩ := p
    simp only [removeKey] at h
    by_cases hk : k1 = k
    · rw [if_pos hk] at h
      exact List.mem_cons.mpr (Or.inr h)
    · rw [if_neg hk] at h
      rcases List.mem_cons.mp h with h | h
      · exact List.mem_cons.mpr (Or.inl h)
      · exact List.mem_cons.mpr (Or.inr (ih k q h))

theorem pointing_set (vrf : Nat) (nhops : List NextHop) :
    ∀ (tbl : List (RouteKey × RouteState)) (k : RouteKey) (e st2 : RouteState),
      lookupTable tbl k = some e →
      pointing vrf nhops (setTable tbl k st2)
          + (if e.added = true ∧ k.vrf = vrf ∧ e.fwd = RouteNextHopEntry.nexthops nhops
             then 1 else 0)
        = pointing vrf nhops tbl
          + (if st2.added = true ∧ k.vrf = vrf ∧ st2.fwd = RouteNextHopEntry.nexthops nhops
             then 1 else 0) := by
  intro tbl
  induction tbl with
  | nil => intro k e st2 h; simp [lookupTable] at h
  | cons p t ih =>
    intro k e st2 h
    obtain ⟨k1, v1⟩ := p
    simp only [lookupTable] at h
    simp only [setTable]
    by_cases hk : k1 = k
    · rw [if_pos hk] at h
      obtain rfl : v1 = e := by simpa using h
      subst hk
      rw [if_pos rfl]
      simp only [pointing_cons]
      omega
    · rw [if_neg hk] at h
      rw [if_neg hk]
      simp only [pointing_cons]
      have := ih k e st2 h
      omega

theorem pointing_remove (vrf : Nat) (nhops : List NextHop) :
    ∀ (tbl : List (RouteKey × RouteState)) (k : RouteKey) (e : RouteState),
      lookupTable tbl k = some e →
      pointing vrf nhops (removeKey tbl k)
          + (if e.added = true ∧ k.vrf = vrf ∧ e.fwd = RouteNextHopEntry.nexthops nhops
             then 1 else 0)
        = pointing vrf nhops tbl := by
  intro tbl
  induction tbl with
  | nil => intro k e h; simp [lookupTable] at h
  | cons p t ih =>
    intro k e h
    obtain ⟨k1, v1⟩ := p
    simp only [lookupTable] at h
    simp only [removeKey]
    by_cases hk : k1 = k
    · rw [if_pos hk] at h
      obtain rfl : v1 = e := by simpa using h
      subst hk
      rw [if_pos rfl]
      simp only [pointing_cons]
      omega
    · rw [if_neg hk] at h
      rw [if_neg hk]
      simp only [pointing_cons]
      have := ih k e h
      omega

theorem evCount_cleanup_inc (vrf : Nat) (l : List NextHop) (vrf2 : Nat)
    (nhops2 : List NextHop) :
    evCount (Ev.incEcmp vrf2 nhops2) (cleanupHostEvs vrf l) = 0 := by
  unfold cleanupHostEvs
  split <;> simp [evCount_cons, evCount_nil]

theorem evCount_cleanup_deref (vrf : Nat) (l : List NextHop) (vrf2 : Nat)
    (nhops2 : List NextHop) :
    evCount (Ev.derefEcmp vrf2 nhops2) (cleanupHostEvs vrf l)
      = if ¬ l = [] ∧ vrf = vrf2 ∧ l = nhops2 then 1 else 0 := by
  unfold cleanupHostEvs
  by_cases hl : l = []
  · rw [if_pos hl, if_neg (by simp [hl])]
    rfl
  · rw [if_neg hl]
    simp only [evCount_cons, evCount_nil]
    by_cases hc : vrf = vrf2 ∧ l = nhops2
    · rw [if_pos (by simp [hc.1, hc.2]), if_pos ⟨hl, hc⟩]
    · rw [if_neg (by simp; intro h1 h2; exact absurd ⟨h1, h2⟩ hc), if_neg (by simp [hc, hl])]

theorem evCount_oldClean_inc (cfg : RouteCfg) (st : RouteState) (vrf2 : Nat)
    (nhops2 : List NextHop) :
    evCount (Ev.incEcmp vrf2 nhops2)
        (if st.added = true then cleanupHostEvs cfg.vrf st.fwd.getNextHopSet else []) = 0 := by
  split
  · exact evCount_cleanup_inc cfg.vrf st.fwd.getNextHopSet vrf2 nhops2
  · rfl

theorem evCount_oldClean_deref (cfg : RouteCfg) (st : RouteState) (vrf2 : Nat)
    (nhops2 : List NextHop)
    (hstwf : st.added = true → ∀ l, st.fwd = RouteNextHopEntry.nexthops l → ¬ l = []) :
    evCount (Ev.derefEcmp vrf2 nhops2)
        (if st.added = true then cleanupHostEvs cfg.vrf st.fwd.getNextHopSet else [])
      = if st.added = true ∧ cfg.vrf = vrf2 ∧ st.fwd = RouteNextHopEntry.nexthops nhops2
        then 1 else 0 := by
  by_cases hadd : st.added = true
  · rw [if_pos hadd, evCount_cleanup_deref]
    rcases hfwd : st.fwd with _ | _ | l
    · rw [if_neg (by simp [RouteNextHopEntry.getNextHopSet]), if_neg (by simp)]
    · rw [if_neg (by simp [RouteNextHopEntry.getNextHopSet]), if_neg (by simp)]
    · have hlne : ¬ l = [] := hstwf hadd l hfwd
      simp only [RouteNextHopEntry.getNextHopSet]
      by_cases hc : cfg.vrf = vrf2 ∧ l = nhops2
      · rw [if_pos ⟨hlne, hc⟩, if_pos ⟨hadd, hc.1, by rw [hc.2]⟩]
      · rw [if_neg (by intro h; exact hc h.2), if_neg ?_]
        intro h
        exact hc ⟨h.2.1, by have := h.2.2; simp at this; exact this⟩
  · rw [if_neg hadd, if_neg (by intro h; exact hadd h.1)]
    rfl

theorem destroyRoute_counts (plat : Platform) (cfg : RouteCfg) (st : RouteState)
    (hw : HwState) (vrf2 : Nat) (nhops2 : List NextHop)
    (hstwf : st.added = true → ∀ l, st.fwd = RouteNextHopEntry.nexthops l → ¬ l = []) :
    evCount (Ev.incEcmp vrf2 nhops2) (destroyRoute plat cfg st hw).2 = 0 ∧
      evCount (Ev.derefEcmp vrf2 nhops2) (destroyRoute plat cfg st hw).2
        = (if st.added = true ∧ cfg.vrf = vrf2 ∧ st.fwd = RouteNextHopEntry.nexthops nhops2
           then 1 else 0) := by
  have hclean := evCount_oldClean_deref cfg st vrf2 nhops2 hstwf
  by_cases hadd : st.added = true
  · rw [if_pos hadd] at hclean
    by_cases hcan : canUseHostTable plat cfg = true
    · rw [destroyRoute_added_host plat cfg st hw hadd hcan]
      constructor
      · simp [evCount_append, evCount_cons, evCount_cleanup_inc]
      · simp only [evCount_append, evCount_cons, evCount_nil, hclean]
        simp
    · rw [destroyRoute_added_lpm plat cfg st hw hadd hcan]
      constructor
      · simp [evCount_append, evCount_cons, evCount_cleanup_inc]
      · simp only [evCount_append, evCount_cons, evCount_nil, hclean]
        simp
  · rw [destroyRoute_not_added plat cfg st hw (by simpa using hadd)]
    rw [if_neg (by intro h; exact hadd h.1)]
    exact ⟨rfl, rfl⟩

theorem program_success_counts (plat : Platform) (cfg : RouteCfg) (st : RouteState)
    (wb : WarmBootCache) (hw : HwState) (fwd : RouteNextHopEntry)
    (hnoop : ¬ (st.added = true ∧ fwd = st.fwd))
    (hstwf : st.added = true → ∀ l, st.fwd = RouteNextHopEntry.nexthops l → ¬ l = [])
    (hok : (program plat cfg st wb hw fwd false).out = POut.success) :
    (program plat cfg st wb hw fwd false).st.added = true ∧
      (program plat cfg st wb hw fwd false).st.fwd = fwd ∧
      ∀ vrf2 nhops2,
        evCount (Ev.incEcmp vrf2 nhops2) (program plat cfg st wb hw fwd false).evs
          = (if cfg.vrf = vrf2 ∧ fwd = RouteNextHopEntry.nexthops nhops2 then 1 else 0) ∧
        evCount (Ev.derefEcmp vrf2 nhops2) (program plat cfg st wb hw fwd false).evs
          = (if st.added = true ∧ cfg.vrf = vrf2 ∧ st.fwd = RouteNextHopEntry.nexthops nhops2
             then 1 else 0) := by
  cases fwd with
  | drop =>
    rw [program_drop plat cfg st wb hw false hnoop] at hok ⊢
    unfold programCore at hok ⊢
    by_cases hhost : canUseHostTable plat cfg = true
    · rw [if_pos hhost, programHostPath_ok] at hok ⊢
      refine ⟨rfl, rfl, ?_⟩
      intro vrf2 nhops2
      constructor
      · simp only [evCount_append, evCount_cons, evCount_nil,
          evCount_oldClean_inc cfg st vrf2 nhops2]
        simp [apply_ite (evCount (Ev.incEcmp vrf2 nhops2)), evCount_cons, evCount_nil]
      · simp only [evCount_append, evCount_cons, evCount_nil,
          evCount_oldClean_deref cfg st vrf2 nhops2 hstwf]
        simp [apply_ite (evCount (Ev.derefEcmp vrf2 nhops2)), evCount_cons, evCount_nil]
    · rw [if_neg hhost] at hok ⊢
      rcases hwb : wbLookupLpm wb (cfg.vrf, cfg.addr, cfg.len) with _ | d
      · rw [programLpmPath_ok_none cfg st wb hw RouteNextHopEntry.drop
          plat.dropEgressId hwb] at hok ⊢
        refine ⟨rfl, rfl, ?_⟩
        intro vrf2 nhops2
        constructor
        · simp only [evCount_cons, evCount_oldClean_inc cfg st vrf2 nhops2]
          simp
        · simp only [evCount_cons, evCount_oldClean_deref cfg st vrf2 nhops2 hstwf]
          simp
      · by_cases heqv : d = (⟨cfg.isV6,
            decide (1 < (RouteNextHopEntry.drop).getNextHopSet.length),
            plat.dropEgressId⟩ : LpmDescr)
        · rw [programLpmPath_ok_some_eq cfg st wb hw RouteNextHopEntry.drop
            plat.dropEgressId false d hwb heqv] at hok ⊢
          refine ⟨rfl, rfl, ?_⟩
          intro vrf2 nhops2
          constructor
          · simp only [evCount_oldClean_inc cfg st vrf2 nhops2]
            simp
          · simp only [evCount_oldClean_deref cfg st vrf2 nhops2 hstwf]
        · rw [programLpmPath_ok_some_ne cfg st wb hw RouteNextHopEntry.drop
            plat.dropEgressId d hwb heqv] at hok ⊢
          refine ⟨rfl, rfl, ?_⟩
          intro vrf2 nhops2
          constructor
          · simp only [evCount_cons, evCount_oldClean_inc cfg st vrf2 nhops2]
            simp
          · simp only [evCount_cons, evCount_oldClean_deref cfg st vrf2 nhops2 hstwf]
            simp
  | toCPU =>
    rw [program_toCPU plat cfg st wb hw false hnoop] at hok ⊢
    unfold programCore at hok ⊢
    by_cases hhost : canUseHostTable plat cfg = true
    · rw [if_pos hhost, programHostPath_ok] at hok ⊢
      refine ⟨rfl, rfl, ?_⟩
      intro vrf2 nhops2
      constructor
      · simp only [evCount_append, evCount_cons, evCount_nil,
          evCount_oldClean_inc cfg st vrf2 nhops2]
        simp [apply_ite (evCount (Ev.incEcmp vrf2 nhops2)), evCount_cons, evCount_nil]
      · simp only [evCount_append, evCount_cons, evCount_nil,
          evCount_oldClean_deref cfg st vrf2 nhops2 hstwf]
        simp [apply_ite (evCount (Ev.derefEcmp vrf2 nhops2)), evCount_cons, evCount_nil]
    · rw [if_neg hhost] at hok ⊢
      rcases hwb : wbLookupLpm wb (cfg.vrf, cfg.addr, cfg.len) with _ | d
      · rw [programLpmPath_ok_none cfg st wb hw RouteNextHopEntry.toCPU
          plat.toCPUEgressId hwb] at hok ⊢
        refine ⟨rfl, rfl, ?_⟩
        intro vrf2 nhops2
        constructor
        · simp only [evCount_cons, evCount_oldClean_inc cfg st vrf2 nhops2]
          simp
        · simp only [evCount_cons, evCount_oldClean_deref cfg st vrf2 nhops2 hstwf]
          simp
      · by_cases heqv : d = (⟨cfg.isV6,
            decide (1 < (RouteNextHopEntry.toCPU).getNextHopSet.length),
            plat.toCPUEgressId⟩ : LpmDescr)
        · rw [programLpmPath_ok_some_eq cfg st wb hw RouteNextHopEntry.toCPU
            plat.toCPUEgressId false d hwb heqv] at hok ⊢
          refine ⟨rfl, rfl, ?_⟩
          intro vrf2 nhops2
          constructor
          · simp only [evCount_oldClean_inc cfg st vrf2 nhops2]
            simp
          · simp only [evCount_oldClean_deref cfg st vrf2 nhops2 hstwf]
        · rw [programLpmPath_ok_some_ne cfg st wb hw RouteNextHopEntry.toCPU
            plat.toCPUEgressId d hwb heqv] at hok ⊢
          refine ⟨rfl, rfl, ?_⟩
          intro vrf2 nhops2
          constructor
          · simp only [evCount_cons, evCount_oldClean_inc cfg st vrf2 nhops2]
            simp
          · simp only [evCount_cons, evCount_oldClean_deref cfg st vrf2 nhops2 hstwf]
            simp
  | nexthops nhops =>
    by_cases hne : nhops = []
    · subst hne
      rw [program_nexthops_nil plat cfg st wb hw false hnoop] at hok
      simp at hok
    · rw [program_nexthops plat cfg st wb hw nhops false hnoop hne] at hok ⊢
      dsimp only at hok ⊢
      unfold programCore at hok ⊢
      by_cases hhost : canUseHostTable plat cfg = true
      · rw [if_pos hhost, programHostPath_ok] at hok ⊢
        refine ⟨rfl, rfl, ?_⟩
        intro vrf2 nhops2
        constructor
        · simp only [evCount_cons, evCount_append, evCount_nil,
            evCount_oldClean_inc cfg st vrf2 nhops2]
          simp [apply_ite (evCount (Ev.incEcmp vrf2 nhops2)), evCount_cons, evCount_nil]
        · simp only [evCount_cons, evCount_append, evCount_nil,
            evCount_oldClean_deref cfg st vrf2 nhops2 hstwf]
          simp [apply_ite (evCount (Ev.derefEcmp vrf2 nhops2)), evCount_cons, evCount_nil]
      · rw [if_neg hhost] at hok ⊢
        rcases hwb : wbLookupLpm wb (cfg.vrf, cfg.addr, cfg.len) with _ | d
        · rw [programLpmPath_ok_none cfg st wb hw (RouteNextHopEntry.nexthops nhops)
            (plat.ecmpEgressId cfg.vrf nhops) hwb] at hok ⊢
          refine ⟨rfl, rfl, ?_⟩
          intro vrf2 nhops2
          constructor
          · simp only [evCount_cons, evCount_oldClean_inc cfg st vrf2 nhops2]
            simp
          · simp only [evCount_cons, evCount_oldClean_deref cfg st vrf2 nhops2 hstwf]
            simp
        · by_cases heqv : d = (⟨cfg.isV6,
              decide (1 < (RouteNextHopEntry.nexthops nhops).getNextHopSet.length),
              plat.ecmpEgressId cfg.vrf nhops⟩ : LpmDescr)
          · rw [programLpmPath_ok_some_eq cfg st wb hw (RouteNextHopEntry.nexthops nhops)
              (plat.ecmpEgressId cfg.vrf nhops) false d hwb heqv] at hok ⊢
            refine ⟨rfl, rfl, ?_⟩
            intro vrf2 nhops2
            constructor
            · simp only [evCount_cons, evCount_oldClean_inc cfg st vrf2 nhops2]
              simp
            · simp only [evCount_cons, evCount_oldClean_deref cfg st vrf2 nhops2 hstwf]
              simp
          · rw [programLpmPath_ok_some_ne cfg st wb hw (RouteNextHopEntry.nexthops nhops)
              (plat.ecmpEgressId cfg.vrf nhops) d hwb heqv] at hok ⊢
            refine ⟨rfl, rfl, ?_⟩
            intro vrf2 nhops2
            constructor
            · simp only [evCount_cons, evCount_oldClean_inc cfg st vrf2 nhops2]
              simp
            · simp only [evCount_cons, evCount_oldClean_deref cfg st vrf2 nhops2 hstwf]
              simp

theorem bcmDeleteRoute_none (plat : Platform) (s : Sys) (vrf : Nat) (r : RouteIn)
    (h : lookupTable s.table (keyOfRoute vrf r) = none) :
    bcmDeleteRoute plat s vrf r = ⟨POut.threw, s⟩ := by
  simp only [bcmDeleteRoute]
  rw [h]

theorem bcmDeleteRoute_some (plat : Platform) (s : Sys) (vrf : Nat) (r : RouteIn)
    (st : RouteState) (h : lookupTable s.table (keyOfRoute vrf r) = some st) :
    bcmDeleteRoute plat s vrf r
      = ⟨POut.success,
          ⟨removeKey s.table (keyOfRoute vrf r), s.wb,
           (destroyRoute plat (cfgOfKey (keyOfRoute vrf r)) st s.hw).1,
           s.evs ++ (destroyRoute plat (cfgOfKey (keyOfRoute vrf r)) st s.hw).2⟩⟩ := by
  simp only [bcmDeleteRoute]
  rw [h]

theorem bcmAddRoute_unresolved_out (plat : Platform) (s : Sys) (vrf : Nat) (r : RouteIn)
    (hwFail : Bool) (h : r.resolved = false) :
    (bcmAddRoute plat s vrf r hwFail).out = POut.aborted := by
  simp only [bcmAddRoute]
  rcases hlook : lookupTable s.table (keyOfRoute vrf r) with _ | st0 <;>
    (dsimp only; rw [if_pos h])

theorem bcmAddRoute_existing_out (plat : Platform) (s : Sys) (vrf : Nat) (r : RouteIn)
    (hwFail : Bool) (st0 : RouteState)
    (h : lookupTable s.table (keyOfRoute vrf r) = some st0) (hres : r.resolved = true) :
    (bcmAddRoute plat s vrf r hwFail).out
      = (program plat (cfgOfKey (keyOfRoute vrf r)) st0 s.wb s.hw
          (normalizeFwd plat r.forwardInfo) hwFail).out := by
  simp only [bcmAddRoute]
  rw [h]
  dsimp only
  rw [hres, if_neg (show ¬ (true = false) by simp)]
  rcases hout : (program plat (cfgOfKey (keyOfRoute vrf r)) st0 s.wb s.hw
    (normalizeFwd plat r.forwardInfo) hwFail).out <;> rfl

theorem bcmAddRoute_existing_success (plat : Platform) (s : Sys) (vrf : Nat) (r : RouteIn)
    (hwFail : Bool) (st0 : RouteState)
    (h : lookupTable s.table (keyOfRoute vrf r) = some st0) (hres : r.resolved = true)
    (hout : (program plat (cfgOfKey (keyOfRoute vrf r)) st0 s.wb s.hw
      (normalizeFwd plat r.forwardInfo) hwFail).out = POut.success) :
    bcmAddRoute plat s vrf r hwFail
      = ⟨POut.success,
          ⟨setTable s.table (keyOfRoute vrf r)
             (program plat (cfgOfKey (keyOfRoute vrf r)) st0 s.wb s.hw
               (normalizeFwd plat r.forwardInfo) hwFail).st,
           (program plat (cfgOfKey (keyOfRoute vrf r)) st0 s.wb s.hw
             (normalizeFwd plat r.forwardInfo) hwFail).wb,
           (program plat (cfgOfKey (keyOfRoute vrf r)) st0 s.wb s.hw
             (normalizeFwd plat r.forwardInfo) hwFail).hw,
           s.evs ++ (program plat (cfgOfKey (keyOfRoute vrf r)) st0 s.wb s.hw
             (normalizeFwd plat r.forwardInfo) hwFail).evs⟩⟩ := by
  simp only [bcmAddRoute]
  rw [h]
  dsimp only
  rw [hres, if_neg (show ¬ (true = false) by simp), hout]

theorem bcmAddRoute_fresh_out (plat : Platform) (s : Sys) (vrf : Nat) (r : RouteIn)
    (hwFail : Bool)
    (h : lookupTable s.table (keyOfRoute vrf r) = none) (hres : r.resolved = true) :
    (bcmAddRoute plat s vrf r hwFail).out
      = (program plat (cfgOfKey (keyOfRoute vrf r)) initRouteState s.wb s.hw
          (normalizeFwd plat r.forwardInfo) hwFail).out := by
  simp only [bcmAddRoute]
  rw [h]
  dsimp only
  rw [hres, if_neg (show ¬ (true = false) by simp)]
  rcases hout : (program plat (cfgOfKey (keyOfRoute vrf r)) initRouteState s.wb s.hw
    (normalizeFwd plat r.forwardInfo) hwFail).out <;> rfl

theorem bcmAddRoute_fresh_success (plat : Platform) (s : Sys) (vrf : Nat) (r : RouteIn)
    (hwFail : Bool)
    (h : lookupTable s.table (keyOfRoute vrf r) = none) (hres : r.resolved = true)
    (hout : (program plat (cfgOfKey (keyOfRoute vrf r)) initRouteState s.wb s.hw
      (normalizeFwd plat r.forwardInfo) hwFail).out = POut.success) :
    bcmAddRoute plat s vrf r hwFail
      = ⟨POut.success,
          ⟨s.table ++ [(keyOfRoute vrf r,
             (program plat (cfgOfKey (keyOfRoute vrf r)) initRouteState s.wb s.hw
               (normalizeFwd plat r.forwardInfo) hwFail).st)],
           (program plat (cfgOfKey (keyOfRoute vrf r)) initRouteState s.wb s.hw
             (normalizeFwd plat r.forwardInfo) hwFail).wb,
           (program plat (cfgOfKey (keyOfRoute vrf r)) initRouteState s.wb s.hw
             (normalizeFwd plat r.forwardInfo) hwFail).hw,
           s.evs ++ (program plat (cfgOfKey (keyOfRoute vrf r)) initRouteState s.wb s.hw
             (normalizeFwd plat r.forwardInfo) hwFail).evs⟩⟩ := by
  simp only [bcmAddRoute]
  rw [h]
  dsimp only
  rw [hres, if_neg (show ¬ (true = false) by simp), hout]

theorem program_success_fwd_wf (plat : Platform) (cfg : RouteCfg) (st : RouteState)
    (wb : WarmBootCache) (hw : HwState) (fwd : RouteNextHopEntry) (hwFail : Bool)
    (hnoop : ¬ (st.added = true ∧ fwd = st.fwd))
    (hok : (program plat cfg st wb hw fwd hwFail).out = POut.success) :
    ∀ l, fwd = RouteNextHopEntry.nexthops l → ¬ l = [] := by
  intro l hl hle
  subst hl
  subst hle
  rw [program_nexthops_nil plat cfg st wb hw hwFail hnoop] at hok
  simp at hok

theorem cfgOfKey_vrf (k : RouteKey) : (cfgOfKey k).vrf = k.vrf := rfl

theorem runOp_step (plat : Platform) (s s1 : Sys) (op : TblOp)
    (hop : runOp plat s op = some s1)
    (h1 : ∀ p ∈ s.table, p.2.added = true ∧
      ∀ l, p.2.fwd = RouteNextHopEntry.nexthops l → ¬ l = [])
    (h2 : ∀ vrf nhops, evCount (Ev.incEcmp vrf nhops) s.evs
      = evCount (Ev.derefEcmp vrf nhops) s.evs + pointing vrf nhops s.table) :
    (∀ p ∈ s1.table, p.2.added = true ∧
      ∀ l, p.2.fwd = RouteNextHopEntry.nexthops l → ¬ l = []) ∧
    (∀ vrf nhops, evCount (Ev.incEcmp vrf nhops) s1.evs
      = evCount (Ev.derefEcmp vrf nhops) s1.evs + pointing vrf nhops s1.table) := by
  cases op with
  | del vrf r =>
    simp only [runOp] at hop
    rcases hlook : lookupTable s.table (keyOfRoute vrf r) with _ | st
    · rw [bcmDeleteRoute_none plat s vrf r hlook] at hop
      simp at hop
    · rw [bcmDeleteRoute_some plat s vrf r st hlook] at hop
      dsimp only at hop
      obtain rfl : (⟨removeKey s.table (keyOfRoute vrf r), s.wb,
          (destroyRoute plat (cfgOfKey (keyOfRoute vrf r)) st s.hw).1,
          s.evs ++ (destroyRoute plat (cfgOfKey (keyOfRoute vrf r)) st s.hw).2⟩ : Sys) = s1 := by
        simpa using hop
      have hst := h1 (keyOfRoute vrf r, st) (lookupTable_mem s.table (keyOfRoute vrf r) st hlook)
      refine ⟨?_, ?_⟩
      · intro p hp
        exact h1 p (mem_removeKey s.table (keyOfRoute vrf r) p hp)
      · intro vrf2 nhops2
        have hd := destroyRoute_counts plat (cfgOfKey (keyOfRoute vrf r)) st s.hw vrf2 nhops2
          (fun _ => hst.2)
        have hps := pointing_remove vrf2 nhops2 s.table (keyOfRoute vrf r) st hlook
        have h2v := h2 vrf2 nhops2
        dsimp only
        rw [evCount_append, evCount_append, hd.1, hd.2]
        simp only [cfgOfKey_vrf]
        omega
  | add vrf r =>
    simp only [runOp] at hop
    rcases hres : r.resolved with _ | _
    · rw [bcmAddRoute_unresolved_out plat s vrf r false hres] at hop
      simp at hop
    · rcases hlook : lookupTable s.table (keyOfRoute vrf r) with _ | st0
      · rw [bcmAddRoute_fresh_out plat s vrf r false hlook hres] at hop
        rcases hout : (program plat (cfgOfKey (keyOfRoute vrf r)) initRouteState s.wb s.hw
            (normalizeFwd plat r.forwardInfo) false).out with _ | _ | _
        · rw [hout] at hop
          dsimp only at hop
          rw [bcmAddRoute_fresh_success plat s vrf r false hlook hres hout] at hop
          dsimp only at hop
          obtain rfl : (⟨s.table ++ [(keyOfRoute vrf r,
              (program plat (cfgOfKey (keyOfRoute vrf r)) initRouteState s.wb s.hw
                (normalizeFwd plat r.forwardInfo) false).st)],
              (program plat (cfgOfKey (keyOfRoute vrf r)) initRouteState s.wb s.hw
                (normalizeFwd plat r.forwardInfo) false).wb,
              (program plat (cfgOfKey (keyOfRoute vrf r)) initRouteState s.wb s.hw
                (normalizeFwd plat r.forwardInfo) false).hw,
              s.evs ++ (program plat (cfgOfKey (keyOfRoute vrf r)) initRouteState s.wb s.hw
                (normalizeFwd plat r.forwardInfo) false).evs⟩ : Sys) = s1 := by
            simpa using hop
          have hnoop : ¬ (initRouteState.added = true ∧
              normalizeFwd plat r.forwardInfo = initRouteState.fwd) := by
            simp [initRouteState]
          have hpc := program_success_counts plat (cfgOfKey (keyOfRoute vrf r)) initRouteState
            s.wb s.hw (normalizeFwd plat r.forwardInfo) hnoop
            (by intro ha; simp [initRouteState] at ha) hout
          have hfw := program_success_fwd_wf plat (cfgOfKey (keyOfRoute vrf r)) initRouteState
            s.wb s.hw (normalizeFwd plat r.forwardInfo) false hnoop hout
          refine ⟨?_, ?_⟩
          · intro p hp
            rcases List.mem_append.mp hp with hmem | hmem
            · exact h1 p hmem
            · have hpe : p = (keyOfRoute vrf r,
                  (program plat (cfgOfKey (keyOfRoute vrf r)) initRouteState s.wb s.hw
                    (normalizeFwd plat r.forwardInfo) false).st) := by
                simpa using hmem
              subst hpe
              refine ⟨hpc.1, ?_⟩
              intro l hl
              rw [hpc.2.1] at hl
              exact hfw l hl
          · intro vrf2 nhops2
            have h2v := h2 vrf2 nhops2
            have hc := hpc.2.2 vrf2 nhops2
            have hpa := pointing_append_single vrf2 nhops2 s.table (keyOfRoute vrf r)
              ((program plat (cfgOfKey (keyOfRoute vrf r)) initRouteState s.wb s.hw
                (normalizeFwd plat r.forwardInfo) false).st)
            dsimp only
            rw [evCount_append, evCount_append, hc.1, hc.2, hpa]
            simp only [cfgOfKey_vrf]
            simp only [hpc.1, hpc.2.1, eq_self_iff_true, true_and]
            rw [if_neg (show ¬ (initRouteState.added = true ∧
                (keyOfRoute vrf r).vrf = vrf2 ∧
                initRouteState.fwd = RouteNextHopEntry.nexthops nhops2) from by
              simp [initRouteState])]
            omega
        · rw [hout] at hop
          simp at hop
        · rw [hout] at hop
          simp at hop
      · rw [bcmAddRoute_existing_out plat s vrf r false st0 hlook hres] at hop
        rcases hout : (program plat (cfgOfKey (keyOfRoute vrf r)) st0 s.wb s.hw
            (normalizeFwd plat r.forwardInfo) false).out with _ | _ | _
        · rw [hout] at hop
          dsimp only at hop
          rw [bcmAddRoute_existing_success plat s vrf r false st0 hlook hres hout] at hop
          dsimp only at hop
          obtain rfl : (⟨setTable s.table (keyOfRoute vrf r)
              (program plat (cfgOfKey (keyOfRoute vrf r)) st0 s.wb s.hw
                (normalizeFwd plat r.forwardInfo) false).st,
              (program plat (cfgOfKey (keyOfRoute vrf r)) st0 s.wb s.hw
                (normalizeFwd plat r.forwardInfo) false).wb,
              (program plat (cfgOfKey (keyOfRoute vrf r)) st0 s.wb s.hw
                (normalizeFwd plat r.forwardInfo) false).hw,
              s.evs ++ (program plat (cfgOfKey (keyOfRoute vrf r)) st0 s.wb s.hw
                (normalizeFwd plat r.forwardInfo) false).evs⟩ : Sys) = s1 := by
            simpa using hop
          have hst0 := h1 (keyOfRoute vrf r, st0)
            (lookupTable_mem s.table (keyOfRoute vrf r) st0 hlook)
          by_cases hnoop : st0.added = true ∧ normalizeFwd plat r.forwardInfo = st0.fwd
          · rw [program_noop hnoop.1 hnoop.2]
            dsimp only
            rw [setTable_self s.table (keyOfRoute vrf r) st0 hlook]
            refine ⟨fun p hp => h1 p hp, ?_⟩
            intro vrf2 nhops2
            rw [evCount_append, evCount_append]
            simp only [evCount_nil]
            have := h2 vrf2 nhops2
            omega
          · have hpc := program_success_counts plat (cfgOfKey (keyOfRoute vrf r)) st0
              s.wb s.hw (normalizeFwd plat r.forwardInfo) hnoop (fun _ => hst0.2) hout
            have hfw := program_success_fwd_wf plat (cfgOfKey (keyOfRoute vrf r)) st0
              s.wb s.hw (normalizeFwd plat r.forwardInfo) false hnoop hout
            refine ⟨?_, ?_⟩
            · intro p hp
              rcases mem_setTable s.table (keyOfRoute vrf r)
                  ((program plat (cfgOfKey (keyOfRoute vrf r)) st0 s.wb s.hw
                    (normalizeFwd plat r.forwardInfo) false).st) p hp with hmem | hmem
              · exact h1 p hmem
              · subst hmem
                refine ⟨hpc.1, ?_⟩
                intro l hl
                rw [hpc.2.1] at hl
                exact hfw l hl
            · intro vrf2 nhops2
              have h2v := h2 vrf2 nhops2
              have hc := hpc.2.2 vrf2 nhops2
              have hps := pointing_set vrf2 nhops2 s.table (keyOfRoute vrf r) st0
                ((program plat (cfgOfKey (keyOfRoute vrf r)) st0 s.wb s.hw
                  (normalizeFwd plat r.forwardInfo) false).st) hlook
              dsimp only
              rw [evCount_append, evCount_append, hc.1, hc.2]
              simp only [hpc.1, hpc.2.1, eq_self_iff_true, true_and] at hps
              simp only [cfgOfKey_vrf]
              omega
        · rw [hout] at hop
          simp at hop
        · rw [hout] at hop
          simp at hop

theorem runOps_inv (plat : Platform) : ∀ (ops : List TblOp) (s s2 : Sys),
    runOps plat s ops = some s2 →
    (∀ p ∈ s.table, p.2.added = true ∧
      ∀ l, p.2.fwd = RouteNextHopEntry.nexthops l → ¬ l = []) →
    (∀ vrf nhops, evCount (Ev.incEcmp vrf nhops) s.evs
      = evCount (Ev.derefEcmp vrf nhops) s.evs + pointing vrf nhops s.table) →
    ∀ vrf nhops, evCount (Ev.incEcmp vrf nhops) s2.evs
      = evCount (Ev.derefEcmp vrf nhops) s2.evs + pointing vrf nhops s2.table := by
  intro ops
  induction ops with
  | nil =>
    intro s s2 hrun h1 h2
    simp only [runOps] at hrun
    obtain rfl : s = s2 := by simpa using hrun
    exact h2
  | cons op rest ih =>
    intro s s2 hrun h1 h2
    simp only [runOps] at hrun
    rcases hop : runOp plat s op with _ | s1
    · rw [hop] at hrun
      simp at hrun
    · rw [hop] at hrun
      dsimp only at hrun
      obtain ⟨h1b, h2b⟩ := runOp_step plat s s1 op hop h1 h2
      exact ih s1 s2 hrun h1b h2b

/-- C5: refcount conservation — after any sequence of successful
`addRoute`/`deleteRoute` calls starting from an empty route table, for every
(vrf, next-hop set) key the number of `incRefOrCreateBcmEcmpHost` calls minus
the number of `derefBcmEcmpHost` calls issued to the host table equals the
number of route entries whose current forwarding decision points at that
next-hop set. -/
theorem claim5_refcount_conservation (plat : Platform) (wb0 : WarmBootCache) (hw0 : HwState)
    (ops : List TblOp) (s : Sys) (vrf : Nat) (nhops : List NextHop)
    (hrun : runOps plat ⟨[], wb0, hw0, []⟩ ops = some s) :
    evCount (Ev.incEcmp vrf nhops) s.evs
      = evCount (Ev.derefEcmp vrf nhops) s.evs + pointing vrf nhops s.table :=
  runOps_inv plat ops ⟨[], wb0, hw0, []⟩ s hrun (by intro p hp; simp at hp)
    (fun _ _ => rfl) vrf nhops

theorem claim5_refcount_conservation_witness :
    runOps platW ⟨[], ⟨[], []⟩, ⟨[]⟩, []⟩
        [TblOp.add 0 ⟨false, 10, 24, true, RouteNextHopEntry.nexthops [⟨1, 1⟩]⟩,
         TblOp.add 0 ⟨false, 11, 24, true, RouteNextHopEntry.nexthops [⟨1, 1⟩]⟩,
         TblOp.del 0 ⟨false, 10, 24, true, RouteNextHopEntry.nexthops [⟨1, 1⟩]⟩]
      = some ⟨[(⟨false, 11, 24, 0⟩, ⟨true, RouteNextHopEntry.nexthops [⟨1, 1⟩], 7⟩)],
          ⟨[], []⟩, ⟨[(0, 11, 24)]⟩,
          [Ev.incEcmp 0 [⟨1, 1⟩], Ev.lpmWrite 0 10 24 false false false 7,
           Ev.incEcmp 0 [⟨1, 1⟩], Ev.lpmWrite 0 11 24 false false false 7,
           Ev.lpmDelete 0 10 24, Ev.derefEcmp 0 [⟨1, 1⟩]]⟩ ∧
      evCount (Ev.incEcmp 0 [⟨1, 1⟩])
          [Ev.incEcmp 0 [⟨1, 1⟩], Ev.lpmWrite 0 10 24 false false false 7,
           Ev.incEcmp 0 [⟨1, 1⟩], Ev.lpmWrite 0 11 24 false false false 7,
           Ev.lpmDelete 0 10 24, Ev.derefEcmp 0 [⟨1, 1⟩]]
        = evCount (Ev.derefEcmp 0 [⟨1, 1⟩])
            [Ev.incEcmp 0 [⟨1, 1⟩], Ev.lpmWrite 0 10 24 false false false 7,
             Ev.incEcmp 0 [⟨1, 1⟩], Ev.lpmWrite 0 11 24 false false false 7,
             Ev.lpmDelete 0 10 24, Ev.derefEcmp 0 [⟨1, 1⟩]]
          + pointing 0 [⟨1, 1⟩]
              [(⟨false, 11, 24, 0⟩, ⟨true, RouteNextHopEntry.nexthops [⟨1, 1⟩], 7⟩)] :=
  ⟨by decide,
    claim5_refcount_conservation platW ⟨[], []⟩ ⟨[]⟩
      [TblOp.add 0 ⟨false, 10, 24, true, RouteNextHopEntry.nexthops [⟨1, 1⟩]⟩,
       TblOp.add 0 ⟨false, 11, 24, true, RouteNextHopEntry.nexthops [⟨1, 1⟩]⟩,
       TblOp.del 0 ⟨false, 10, 24, true, RouteNextHopEntry.nexthops [⟨1, 1⟩]⟩]
      ⟨[(⟨false, 11, 24, 0⟩, ⟨true, RouteNextHopEntry.nexthops [⟨1, 1⟩], 7⟩)],
        ⟨[], []⟩, ⟨[(0, 11, 24)]⟩,
        [Ev.incEcmp 0 [⟨1, 1⟩], Ev.lpmWrite 0 10 24 false false false 7,
         Ev.incEcmp 0 [⟨1, 1⟩], Ev.lpmWrite 0 11 24 false false false 7,
         Ev.lpmDelete 0 10 24, Ev.derefEcmp 0 [⟨1, 1⟩]]⟩
      0 [⟨1, 1⟩] (by decide)⟩
